import Mathlib

/-!
# Verification of `metadata/metadata.go` (mender-artifact)

A shallow embedding of the descriptor validators, the schema table
`MetadataHeaderFormat`, the entry matcher `processEntry` and the header
structure validator `CheckHeaderStructure`, followed by the theorems that
settle the claims of the specification.

Modelling conventions.

* Go strings are Lean strings.  Every byte the code inspects (`/`, `.`, `*`)
  is ASCII, so scanning characters and scanning bytes agree on valid UTF-8.
* A Go `map[string]V` is an association list `GoMap V`; the order of the list
  is the order in which `range` enumerates the map.  A Go map never holds a
  key twice; theorems that need this say so.
* A Go `error` is `Option Err`; `none` is `nil`.
* `filepath.Walk` with `filepath.Rel` is modelled by the list of callback
  invocations it makes: each observed node with its path relative to the
  header directory and its kind.  `WalkEntry` and `walk` cover the invocations
  without traversal error; `WalkCall` and `walkCalls` cover all of them.
-/

set_option autoImplicit false

namespace metadata

/-! ## Go maps -/

/-- A Go map with string keys, as the list of its key/value pairs in enumeration order. -/
abbrev GoMap (V : Type) := List (String × V)

/-- Map lookup `m[k]`, with the comma-ok result as an option. -/
def mapGet {V : Type} : GoMap V → String → Option V
  | [], _ => none
  | (k', v) :: rest, k => if k' = k then some v else mapGet rest k

/-- Map assignment `m[k] = v`: overwrite the value of an existing key, else add the key. -/
def mapSet {V : Type} : GoMap V → String → V → GoMap V
  | [], k, v => [(k, v)]
  | (k', v') :: rest, k, v => if k' = k then (k, v) :: rest else (k', v') :: mapSet rest k v

/-- The keys of a map, in enumeration order. -/
def mapKeys {V : Type} (m : GoMap V) : List String := m.map Prod.fst

/-! ## Errors -/

/-- The package-level error values of `metadata.go`. -/
inductive Err where
  | ErrInvalidInfo
  | ErrInvalidHeaderInfo
  | ErrInvalidTypeInfo
  | ErrInvalidMetadata
  | ErrInvalidFilesInfo
  | ErrInvalidMetadataElemType
  | ErrMissingMetadataElem
  | ErrUnsupportedElement
  deriving DecidableEq, Repr

open Err

/-- Go's `error`: `none` is `nil`. -/
abbrev error := Option Err

/-- Go's builtin `len` on a string: its length in bytes. -/
def len (s : String) : Nat := s.utf8ByteSize

/-- Go's `strings.Compare`: 0 when equal, -1 when `a < b`, +1 otherwise. -/
def stringsCompare (a b : String) : Int :=
  if a = b then 0 else if a < b then -1 else 1

/-! ## Path functions of `path/filepath` (Unix), on character lists -/

/-- The elements of a path: the pieces between separators. -/
def splitSlash : List Char → List (List Char)
  | [] => [[]]
  | c :: cs =>
    if c = '/' then [] :: splitSlash cs
    else
      match splitSlash cs with
      | [] => [[c]]
      | s :: ss => (c :: s) :: ss

/-- Path elements joined with single separators. -/
def joinSlash : List (List Char) → List Char
  | [] => []
  | [s] => s
  | s :: t :: rest => s ++ '/' :: joinSlash (t :: rest)

/-- One iteration of the loop of `filepath.Clean` on the next path element.
`out` is the output buffer as a stack of elements, last written first.
Empty and `.` elements are dropped; `..` removes the last written element
when that is not itself `..` (`out.w > dotdot`), is dropped at the root of a
rooted path and is appended otherwise; any other element is appended. -/
def cleanStep (rooted : Bool) (out : List (List Char)) (seg : List Char) : List (List Char) :=
  if seg = [] ∨ seg = ['.'] then out
  else if seg = ['.', '.'] then
    match out with
    | [] => if rooted then [] else [seg]
    | top :: rest =>
      if top ≠ ['.', '.'] then rest
      else if rooted then out
      else seg :: out
  else seg :: out

/-- The function `filepath.Clean` on character lists. -/
def cleanL (path : List Char) : List Char :=
  if path = [] then ['.']
  else
    let rooted : Bool := path.head? = some '/'
    let out := ((splitSlash path).foldl (cleanStep rooted) []).reverse
    if rooted then '/' :: joinSlash out
    else if out = [] then ['.']
    else joinSlash out

/-- The function `filepath.Base` on character lists: the last element of the
path, after removing trailing separators. -/
def baseL (path : List Char) : List Char :=
  if path = [] then ['.']
  else
    let stripped := path.reverse.dropWhile (fun c => c = '/')
    let last := (stripped.takeWhile (fun c => c ≠ '/')).reverse
    if last = [] then ['/'] else last

/-- The function `filepath.Dir` on character lists: `Clean` of the path up to
and including its last separator. -/
def dirL (path : List Char) : List Char :=
  cleanL (path.reverse.dropWhile (fun c => c ≠ '/')).reverse

/-- The function `filepath.Clean`. -/
def Clean (path : String) : String := ⟨cleanL path.data⟩

/-- The function `filepath.Base`. -/
def Base (path : String) : String := ⟨baseL path.data⟩

/-- The function `filepath.Dir`. -/
def Dir (path : String) : String := ⟨dirL path.data⟩

/-! ## Descriptor validators -/

structure MetadataInfo where
  Format : String
  Version : Int
  deriving DecidableEq, Repr

def MetadataInfo.Validate (m : MetadataInfo) : error :=
  if len m.Format = 0 ∨ m.Version = 0 then some ErrInvalidInfo else none

/-- The struct `MetadataUpdateType`; its field `Type` is written `Type_`. -/
structure MetadataUpdateType where
  Type_ : String
  deriving DecidableEq, Repr

structure MetadataHeaderInfo where
  Updates : List MetadataUpdateType
  deriving DecidableEq, Repr

/-- The `range` loop of `MetadataHeaderInfo.Validate`. -/
def MetadataHeaderInfo.validateLoop : List MetadataUpdateType → error
  | [] => none
  | update :: rest =>
    if update = { Type_ := "" } then some ErrInvalidHeaderInfo
    else MetadataHeaderInfo.validateLoop rest

def MetadataHeaderInfo.Validate (m : MetadataHeaderInfo) : error :=
  if m.Updates.length = 0 then some ErrInvalidHeaderInfo
  else MetadataHeaderInfo.validateLoop m.Updates

structure MetadataTypeInfo where
  Rootfs : String
  deriving DecidableEq, Repr

def MetadataTypeInfo.Validate (m : MetadataTypeInfo) : error :=
  if len m.Rootfs = 0 then some ErrInvalidTypeInfo else none

/-- The struct `Metadata`.  `data = none` is the nil map; a value `none` is the
nil interface value, `some a` any other value. -/
structure Metadata (α : Type) where
  data : Option (GoMap (Option α))

/-- The `range` loop of `Metadata.Validate`, from the current values of
`deviceType` and `imageID`; `none` is the early return inside the loop. -/
def Metadata.validateLoop {α : Type} :
    GoMap (Option α) → Option α → Option α → Option (Option α × Option α)
  | [], deviceType, imageID => some (deviceType, imageID)
  | (k, v) :: rest, deviceType, imageID =>
    if v.isNone then none
    else
      let deviceType := if stringsCompare k "DeviceType" = 0 then v else deviceType
      let imageID := if stringsCompare k "ImageID" = 0 then v else imageID
      Metadata.validateLoop rest deviceType imageID

def Metadata.Validate {α : Type} (m : Metadata α) : error :=
  match m.data with
  | none => some ErrInvalidMetadata
  | some data =>
    match Metadata.validateLoop data none none with
    | none => some ErrInvalidMetadata
    | some (deviceType, imageID) =>
      if deviceType.isNone ∨ imageID.isNone then some ErrInvalidMetadata else none

structure MetadataFile where
  File : String
  deriving DecidableEq, Repr

structure MetadataFiles where
  Files : List MetadataFile
  deriving DecidableEq, Repr

/-- The `range` loop of `MetadataFiles.Validate`. -/
def MetadataFiles.validateLoop : List MetadataFile → error
  | [] => none
  | file :: rest =>
    if file = { File := "" } then some ErrInvalidFilesInfo
    else MetadataFiles.validateLoop rest

def MetadataFiles.Validate (m : MetadataFiles) : error :=
  if m.Files.length = 0 then some ErrInvalidFilesInfo
  else MetadataFiles.validateLoop m.Files

/-! ## Schema table -/

structure MetadataDirEntry where
  path : String
  isDir : Bool
  required : Bool
  deriving DecidableEq, Repr

structure MetadataArtifactHeader where
  Artifacts : GoMap MetadataDirEntry

def MetadataHeaderFormat : GoMap MetadataDirEntry :=
  [ (".", { path := ".", isDir := true, required := false }),
    ("files", { path := "files", isDir := false, required := false }),
    ("meta-data", { path := "meta-data", isDir := false, required := true }),
    ("type-info", { path := "type-info", isDir := false, required := true }),
    ("checksums", { path := "checksums", isDir := true, required := false }),
    ("checksums/*", { path := "checksums", isDir := false, required := false }),
    ("signatures", { path := "signatures", isDir := true, required := true }),
    ("signatures/*", { path := "signatures", isDir := false, required := true }),
    ("scripts", { path := "scripts", isDir := true, required := false }),
    ("scripts/pre", { path := "scripts/pre", isDir := true, required := false }),
    ("scripts/pre/*", { path := "scripts/pre", isDir := false, required := false }),
    ("scripts/post", { path := "scripts/post", isDir := true, required := false }),
    ("scripts/post/*", { path := "scripts/post", isDir := false, required := false }),
    ("scripts/check", { path := "scripts/check", isDir := true, required := false }),
    ("scripts/check/*", { path := "scripts/check/*", isDir := false, required := false }) ]

/-- The header value the claims are about: `mh.Artifacts = MetadataHeaderFormat`. -/
def headerFormat : MetadataArtifactHeader := { Artifacts := MetadataHeaderFormat }

/-! ## Entry matcher and header structure validator -/

/-- The method `processEntry`.  The source mutates the map `required` in
place; here the map after the call is returned next to the error. -/
def MetadataArtifactHeader.processEntry (mh : MetadataArtifactHeader) (entry : String)
    (isDir : Bool) (required : GoMap Bool) : error × GoMap Bool :=
  match mapGet mh.Artifacts entry with
  | none =>
    if Base entry = "*" then (some ErrUnsupportedElement, required)
    else
      let newEntry := Dir entry ++ "/*"
      mh.processEntry newEntry isDir required
  | some elem =>
    if isDir ≠ elem.isDir then (some ErrInvalidMetadataElemType, required)
    else if elem.required then (none, mapSet required entry true)
    else (none, required)
termination_by (if Base entry = "*" then 0 else 1)
decreasing_by
  rename_i hbase
  have hstar : Base (Dir entry ++ "/*") = "*" := by
    apply String.ext
    simp [Base, baseL, String.data_append]
  simp [hstar, hbase]

/-- One invocation of the callback that `CheckHeaderStructure` passes to
`filepath.Walk`, for a node whose `os.FileInfo` is present: `pth` is the result
of `filepath.Rel(headerDir, path)` and `isDir` is `f.IsDir()`.  Invocations in
which `filepath.Walk` reports a traversal error are modelled by `WalkCall`. -/
structure WalkEntry where
  pth : String
  isDir : Bool
  deriving DecidableEq, Repr

/-- The walk of `CheckHeaderStructure` over the observed entries in
traversal order: the callback runs `processEntry` on each entry and the
first error it returns ends the walk. -/
def MetadataArtifactHeader.walk (mh : MetadataArtifactHeader) :
    List WalkEntry → GoMap Bool → error × GoMap Bool
  | [], required => (none, required)
  | e :: rest, required =>
    match mh.processEntry e.pth e.isDir required with
    | (some err, required') => (some err, required')
    | (none, required') => MetadataArtifactHeader.walk mh rest required'

/-- The first loop of `CheckHeaderStructure`: every required pattern of the
table enters the map with value false. -/
def initRequired : GoMap MetadataDirEntry → GoMap Bool → GoMap Bool
  | [], required => required
  | (k, v) :: rest, required =>
    if v.required then initRequired rest (mapSet required k false)
    else initRequired rest required

/-- The last loop of `CheckHeaderStructure`: the first value found false gives
`ErrMissingMetadataElem`. -/
def checkRequired : GoMap Bool → error
  | [] => none
  | (_, v) :: rest => if !v then some ErrMissingMetadataElem else checkRequired rest

/-- The method `CheckHeaderStructure`, on the entries the walk of `headerDir` observes. -/
def MetadataArtifactHeader.CheckHeaderStructure (mh : MetadataArtifactHeader)
    (entries : List WalkEntry) : error :=
  let required := initRequired mh.Artifacts []
  match mh.walk entries required with
  | (some err, _) => some err
  | (none, required') => checkRequired required'

/-! ## Notions used by the specification -/

/-- The part of `processEntry` that follows a successful lookup of `entry`. -/
def checkElem (entry : String) (elem : MetadataDirEntry) (isDir : Bool)
    (required : GoMap Bool) : error × GoMap Bool :=
  if isDir ≠ elem.isDir then (some ErrInvalidMetadataElemType, required)
  else if elem.required then (none, mapSet required entry true)
  else (none, required)

/-- The entry matcher without recursion: look up `entry`; if it is absent and its
base name is not `*`, look up the `*` pattern of its parent once. -/
def processEntryTwoLookups (mh : MetadataArtifactHeader) (entry : String)
    (isDir : Bool) (required : GoMap Bool) : error × GoMap Bool :=
  match mapGet mh.Artifacts entry with
  | some elem => checkElem entry elem isDir required
  | none =>
    if Base entry = "*" then (some ErrUnsupportedElement, required)
    else
      match mapGet mh.Artifacts (Dir entry ++ "/*") with
      | some elem => checkElem (Dir entry ++ "/*") elem isDir required
      | none => (some ErrUnsupportedElement, required)

/-- A pattern `k` is a candidate for the path `p`: it is `p` itself or the `*`
pattern of the parent directory of `p`. -/
def MatchesPath (p k : String) : Prop := k = p ∨ k = Dir p ++ "/*"

instance (p k : String) : Decidable (MatchesPath p k) :=
  inferInstanceAs (Decidable (k = p ∨ k = Dir p ++ "/*"))

/-- The kind the table gives to pattern `k`, if `k` is a pattern of the table. -/
def patternKind (tbl : GoMap MetadataDirEntry) (k : String) : Option Bool :=
  (mapGet tbl k).map MetadataDirEntry.isDir

/-- The pattern `k` is a required pattern of the table. -/
def IsRequired (tbl : GoMap MetadataDirEntry) (k : String) : Prop :=
  (mapGet tbl k).map MetadataDirEntry.required = some true

instance (tbl : GoMap MetadataDirEntry) (k : String) : Decidable (IsRequired tbl k) :=
  inferInstanceAs (Decidable ((mapGet tbl k).map MetadataDirEntry.required = some true))

/-- The observed entry `e` matches pattern `k`: directly or through its parent's
`*` pattern, with the kind of the pattern. -/
def Matches (tbl : GoMap MetadataDirEntry) (e : WalkEntry) (k : String) : Prop :=
  MatchesPath e.pth k ∧ patternKind tbl k = some e.isDir

instance (tbl : GoMap MetadataDirEntry) (e : WalkEntry) (k : String) :
    Decidable (Matches tbl e k) :=
  inferInstanceAs (Decidable (MatchesPath e.pth k ∧ patternKind tbl k = some e.isDir))

/-- The path of the observed entry `e` matches pattern `k`, directly or through
its parent's `*` pattern, but `e` has the opposite kind. -/
def KindMismatch (tbl : GoMap MetadataDirEntry) (e : WalkEntry) (k : String) : Prop :=
  MatchesPath e.pth k ∧ patternKind tbl k = some (!e.isDir)

instance (tbl : GoMap MetadataDirEntry) (e : WalkEntry) (k : String) :
    Decidable (KindMismatch tbl e k) :=
  inferInstanceAs (Decidable (MatchesPath e.pth k ∧ patternKind tbl k = some (!e.isDir)))

/-- The path `p` has no schema match and is not resolvable through one wildcard
fallback: neither `p` nor `dirname(p)/*` is a key of the table. -/
def Unresolvable (tbl : GoMap MetadataDirEntry) (p : String) : Prop :=
  mapGet tbl p = none ∧ mapGet tbl (Dir p ++ "/*") = none

instance (tbl : GoMap MetadataDirEntry) (p : String) : Decidable (Unresolvable tbl p) :=
  inferInstanceAs (Decidable (mapGet tbl p = none ∧ mapGet tbl (Dir p ++ "/*") = none))

/-- The path is in the form `filepath.Rel` returns it: cleaned. -/
def IsClean (p : String) : Prop := Clean p = p

instance (p : String) : Decidable (IsClean p) :=
  inferInstanceAs (Decidable (Clean p = p))

/-- The entries are in pre-order, each directory visited before its members:
every observed path other than the root `.` comes after its parent directory. -/
def PreOrder : List WalkEntry → List WalkEntry → Prop
  | _, [] => True
  | seen, e :: rest =>
    (e.pth = "." ∨ WalkEntry.mk (Dir e.pth) true ∈ seen) ∧ PreOrder (e :: seen) rest

instance PreOrder.dec : (seen es : List WalkEntry) → Decidable (PreOrder seen es)
  | _, [] => isTrue trivial
  | seen, e :: rest =>
    have := PreOrder.dec (e :: seen) rest
    inferInstanceAs (Decidable ((e.pth = "." ∨ WalkEntry.mk (Dir e.pth) true ∈ seen)
      ∧ PreOrder (e :: seen) rest))

/-- The table key under which `processEntry` finds `entry`: `entry` itself when it
is a key; otherwise, unless the base name of `entry` is `*`, the `*` pattern of
its directory when that is a key. -/
def resolveKey (mh : MetadataArtifactHeader) (entry : String) : Option String :=
  match mapGet mh.Artifacts entry with
  | some _ => some entry
  | none =>
    if Base entry = "*" then none
    else
      match mapGet mh.Artifacts (Dir entry ++ "/*") with
      | some _ => some (Dir entry ++ "/*")
      | none => none

/-- The key of `required` that `processEntry` assigns for this entry, if it assigns
one: the key found for the entry, when the kinds agree and the table entry is
required. -/
def trackedKey (mh : MetadataArtifactHeader) (entry : String) (isDir : Bool) : Option String :=
  match resolveKey mh entry with
  | none => none
  | some k =>
    match mapGet mh.Artifacts k with
    | none => none
    | some elem => if isDir = elem.isDir ∧ elem.required = true then some k else none

/-- The effect of one call of `processEntry` on `required`. -/
def applyTracked (k : Option String) (required : GoMap Bool) : GoMap Bool :=
  match k with
  | none => required
  | some key => mapSet required key true

/-- The method `processEntry` with a bound on the number of nested calls: `none`
when the bound is used up before a call returns. -/
def processEntryFuel (mh : MetadataArtifactHeader) :
    Nat → String → Bool → GoMap Bool → Option (error × GoMap Bool)
  | 0, _, _, _ => none
  | fuel + 1, entry, isDir, required =>
    match mapGet mh.Artifacts entry with
    | none =>
      if Base entry = "*" then some (some ErrUnsupportedElement, required)
      else
        let newEntry := Dir entry ++ "/*"
        processEntryFuel mh fuel newEntry isDir required
    | some elem =>
      if isDir ≠ elem.isDir then some (some ErrInvalidMetadataElemType, required)
      else if elem.required then some (none, mapSet required entry true)
      else some (none, required)

/-- The states of `required` during a pass of `CheckHeaderStructure`: the state
after the initialisation loop, and the state after each call of `processEntry`. -/
inductive TrackerReachable (mh : MetadataArtifactHeader) : GoMap Bool → Prop where
  | init : TrackerReachable mh (initRequired mh.Artifacts [])
  | step (required : GoMap Bool) (entry : String) (isDir : Bool) :
      TrackerReachable mh required →
      TrackerReachable mh (mh.processEntry entry isDir required).2

/-! ## The walk with traversal errors -/

/-- An error value that `CheckHeaderStructure` can return: one of the error
variables of this package, or an error made elsewhere (by the filesystem or by
`path/filepath`), identified by its message. -/
inductive GoError where
  | pkg (e : Err)
  | foreign (msg : String)
  deriving DecidableEq, Repr

/-- How a call ends: it returns an error value (`none` is nil), or it panics. -/
inductive Outcome where
  | returns (err : Option GoError)
  | panics
  deriving DecidableEq, Repr

/-- The result of `filepath.Rel(headerDir, path)`. -/
inductive RelResult where
  | ok (pth : String)
  | failed (msg : String)
  deriving DecidableEq, Repr

/-- One invocation of the callback as `filepath.Walk` makes it.  `rel` is what
`filepath.Rel(headerDir, path)` gives for the `path` argument; `f` is the
`os.FileInfo` argument, `none` when it is nil and `some d` when `f.IsDir()` is
`d`; `err` is the error argument, `none` when it is nil and the message of the
traversal error otherwise. -/
structure WalkCall where
  rel : RelResult
  f : Option Bool
  err : Option String
  deriving DecidableEq, Repr

/-- The callback of `CheckHeaderStructure`.  Its first statement
`pth, err := filepath.Rel(headerDir, path)` assigns to the parameter `err`, so the
value `filepath.Walk` passed in is never read; `f.IsDir()` on a nil `f` panics. -/
def walkFn (mh : MetadataArtifactHeader) (call : WalkCall) (required : GoMap Bool) :
    Outcome × GoMap Bool :=
  match call.rel with
  | RelResult.failed msg => (Outcome.returns (some (GoError.foreign msg)), required)
  | RelResult.ok pth =>
    match call.f with
    | none => (Outcome.panics, required)
    | some isDir =>
      match mh.processEntry pth isDir required with
      | (some err, required') => (Outcome.returns (some (GoError.pkg err)), required')
      | (none, required') => (Outcome.returns none, required')

/-- The function `filepath.Walk` seen from the callback: the invocations are made
in order while the callback returns nil; a non-nil error it returns (never
`filepath.SkipDir` here) is what `Walk` returns, and a panic ends the call. -/
def walkCalls (mh : MetadataArtifactHeader) :
    List WalkCall → GoMap Bool → Outcome × GoMap Bool
  | [], required => (Outcome.returns none, required)
  | call :: rest, required =>
    match walkFn mh call required with
    | (Outcome.returns none, required') => walkCalls mh rest required'
    | (out, required') => (out, required')

/-- The method `CheckHeaderStructure` on the invocations `filepath.Walk` makes of
the callback, traversal errors included. -/
def CheckHeaderStructureCalls (mh : MetadataArtifactHeader) (calls : List WalkCall) : Outcome :=
  let required := initRequired mh.Artifacts []
  match walkCalls mh calls required with
  | (Outcome.returns none, required') =>
    Outcome.returns ((checkRequired required').map GoError.pkg)
  | (out, _) => out

/-- The invocation for an observed entry: no traversal error, `os.FileInfo` present. -/
def WalkEntry.toCall (e : WalkEntry) : WalkCall :=
  { rel := RelResult.ok e.pth, f := some e.isDir, err := none }

/-- The method `CheckHeaderStructure` with the enumeration orders of its two `range`
loops made explicit: the first loop enumerates the table as the list `tblOrder`,
and the last loop enumerates `required` as the list `scan required`. -/
def CheckHeaderStructureEnum (mh : MetadataArtifactHeader)
    (tblOrder : GoMap MetadataDirEntry) (scan : GoMap Bool → GoMap Bool)
    (entries : List WalkEntry) : error :=
  let required := initRequired tblOrder []
  match mh.walk entries required with
  | (some err, _) => some err
  | (none, required') => checkRequired (scan required')

end metadata

/-! # Theorems -/

namespace metadata

open Err

/-! ## Strings and maps -/

theorem utf8ByteSize_go_eq_zero (l : List Char) : String.utf8ByteSize.go l = 0 ↔ l = [] := by
  cases l with
  | nil => simp [String.utf8ByteSize.go]
  | cons c cs =>
    have hc := Char.utf8Size_pos c
    simp [String.utf8ByteSize.go]
    omega

theorem len_eq_zero_iff (s : String) : len s = 0 ↔ s = "" := by
  cases s with
  | mk l =>
    rw [len, String.utf8ByteSize, utf8ByteSize_go_eq_zero]
    constructor
    · intro h; subst h; rfl
    · intro h; exact congrArg String.data h

theorem stringsCompare_eq_zero_iff (a b : String) : stringsCompare a b = 0 ↔ a = b := by
  unfold stringsCompare
  by_cases h : a = b
  · simp [h]
  · by_cases h2 : a < b <;> simp [h, h2]

/-! ## Descriptor validators -/

theorem headerInfo_loop_none_iff (l : List MetadataUpdateType) :
    MetadataHeaderInfo.validateLoop l = none ↔ ∀ u ∈ l, u.Type_ ≠ "" := by
  induction l with
  | nil => simp [MetadataHeaderInfo.validateLoop]
  | cons u rest ih =>
    cases u with
    | mk t =>
      by_cases ht : t = ""
      · simp [MetadataHeaderInfo.validateLoop, ht]
      · simp [MetadataHeaderInfo.validateLoop, ht, ih]

theorem headerInfo_loop_cases (l : List MetadataUpdateType) :
    MetadataHeaderInfo.validateLoop l = none ∨
      MetadataHeaderInfo.validateLoop l = some ErrInvalidHeaderInfo := by
  induction l with
  | nil => simp [MetadataHeaderInfo.validateLoop]
  | cons u rest ih =>
    unfold MetadataHeaderInfo.validateLoop
    split
    · exact Or.inr rfl
    · exact ih

theorem files_loop_none_iff (l : List MetadataFile) :
    MetadataFiles.validateLoop l = none ↔ ∀ f ∈ l, f.File ≠ "" := by
  induction l with
  | nil => simp [MetadataFiles.validateLoop]
  | cons f rest ih =>
    cases f with
    | mk t =>
      by_cases ht : t = ""
      · simp [MetadataFiles.validateLoop, ht]
      · simp [MetadataFiles.validateLoop, ht, ih]

theorem files_loop_cases (l : List MetadataFile) :
    MetadataFiles.validateLoop l = none ∨
      MetadataFiles.validateLoop l = some ErrInvalidFilesInfo := by
  induction l with
  | nil => simp [MetadataFiles.validateLoop]
  | cons f rest ih =>
    unfold MetadataFiles.validateLoop
    split
    · exact Or.inr rfl
    · exact ih

/-- The loop of `Metadata.Validate` returns early exactly when some value is nil. -/
theorem metadata_loop_none_iff {α : Type} (d : GoMap (Option α)) (dt im : Option α) :
    Metadata.validateLoop d dt im = none ↔ ∃ kv ∈ d, kv.2 = none := by
  induction d generalizing dt im with
  | nil => simp [Metadata.validateLoop]
  | cons kv rest ih =>
    obtain ⟨k, v⟩ := kv
    cases v with
    | none => simp [Metadata.validateLoop]
    | some a => simp [Metadata.validateLoop, ih]

/-- When the loop of `Metadata.Validate` completes, `deviceType` is nil exactly
when it was nil before and the key is absent; likewise for `imageID`. -/
theorem metadata_loop_some {α : Type} (d : GoMap (Option α)) (dt im dt' im' : Option α)
    (h : Metadata.validateLoop d dt im = some (dt', im')) :
    (dt'.isNone ↔ dt.isNone ∧ "DeviceType" ∉ mapKeys d) ∧
    (im'.isNone ↔ im.isNone ∧ "ImageID" ∉ mapKeys d) := by
  induction d generalizing dt im with
  | nil =>
    simp [Metadata.validateLoop] at h
    obtain ⟨h1, h2⟩ := h
    subst h1; subst h2
    simp [mapKeys]
  | cons kv rest ih =>
    obtain ⟨k, v⟩ := kv
    cases v with
    | none => simp [Metadata.validateLoop] at h
    | some a =>
      simp only [Metadata.validateLoop, Option.isNone_some, Bool.false_eq_true, if_false,
        stringsCompare_eq_zero_iff] at h
      have := ih _ _ h
      obtain ⟨h1, h2⟩ := this
      rw [h1, h2]
      constructor
      · by_cases hk : k = "DeviceType"
        · simp [hk, mapKeys]
        · have hk2 : ¬ "DeviceType" = k := fun e => hk e.symm
          simp [hk, hk2, mapKeys]
      · by_cases hk : k = "ImageID"
        · simp [hk, mapKeys]
        · have hk2 : ¬ "ImageID" = k := fun e => hk e.symm
          simp [hk, hk2, mapKeys]

theorem mem_mapKeys_of_mapGet {V : Type} (m : GoMap V) (k : String) (v : V)
    (h : mapGet m k = some v) : k ∈ mapKeys m := by
  induction m with
  | nil => simp [mapGet] at h
  | cons kv rest ih =>
    obtain ⟨k', v'⟩ := kv
    by_cases hk : k' = k
    · simp [mapKeys, hk]
    · simp only [mapGet, hk, if_false] at h
      have := ih h
      simp only [mapKeys] at this
      simp [mapKeys, this]

/-! ## Path functions -/

theorem splitSlash_ne_nil (l : List Char) : splitSlash l ≠ [] := by
  cases l with
  | nil => simp [splitSlash]
  | cons c cs =>
    unfold splitSlash
    split
    · simp
    · split <;> simp

theorem splitSlash_append_slash (x y : List Char) :
    splitSlash (x ++ '/' :: y) = splitSlash x ++ splitSlash y := by
  induction x with
  | nil => simp [splitSlash]
  | cons c cs ih =>
    by_cases hc : c = '/'
    · simp [splitSlash, hc, ih]
    · have hne := splitSlash_ne_nil cs
      cases hs : splitSlash cs with
      | nil => exact absurd hs hne
      | cons s ss => simp [splitSlash, hc, ih, hs]

theorem splitSlash_slashes (sl : List Char) (h : ∀ c ∈ sl, c = '/') :
    ∀ s ∈ splitSlash sl, s = [] := by
  induction sl with
  | nil => simp [splitSlash]
  | cons c cs ih =>
    have hc : c = '/' := h c (List.mem_cons_self _ _)
    have ih2 := ih (fun c hmem => h c (List.mem_cons_of_mem _ hmem))
    intro s hs
    simp only [splitSlash, hc, if_true, List.mem_cons] at hs
    rcases hs with hs | hs
    · exact hs
    · exact ih2 s hs

theorem splitSlash_star_slashes (sl : List Char) (h : ∀ c ∈ sl, c = '/') :
    ∃ X, splitSlash ('*' :: sl) = ['*'] :: X ∧ ∀ s ∈ X, s = [] := by
  have hall := splitSlash_slashes sl h
  have hne := splitSlash_ne_nil sl
  cases hs : splitSlash sl with
  | nil => exact absurd hs hne
  | cons s ss =>
    rw [hs] at hall
    have hs0 : s = [] := hall s (List.mem_cons_self _ _)
    refine ⟨ss, ?_, fun t ht => hall t (List.mem_cons_of_mem _ ht)⟩
    have hstar : ¬ ('*' = '/') := by decide
    simp [splitSlash, hstar, hs, hs0]

theorem foldl_cleanStep_nils (rooted : Bool) (X : List (List Char)) (h : ∀ s ∈ X, s = [])
    (S : List (List Char)) : X.foldl (cleanStep rooted) S = S := by
  induction X generalizing S with
  | nil => rfl
  | cons s ss ih =>
    have hs : s = [] := h s (List.mem_cons_self _ _)
    rw [List.foldl_cons, hs]
    have : cleanStep rooted S [] = S := by simp [cleanStep]
    rw [this]
    exact ih (fun t ht => h t (List.mem_cons_of_mem _ ht)) S

theorem joinSlash_cons_snoc (x : List Char) (rest : List (List Char)) (y : List Char) :
    joinSlash (x :: (rest ++ [y])) = joinSlash (x :: rest) ++ '/' :: y := by
  induction rest generalizing x with
  | nil => simp [joinSlash]
  | cons t rest2 ih =>
    show joinSlash (x :: t :: (rest2 ++ [y])) = joinSlash (x :: t :: rest2) ++ '/' :: y
    rw [joinSlash, ih t, joinSlash]
    simp

theorem joinSlash_snoc (xs : List (List Char)) (y : List Char) :
    joinSlash (xs ++ [y]) = if xs = [] then y else joinSlash xs ++ '/' :: y := by
  cases xs with
  | nil => simp [joinSlash]
  | cons x rest => simpa using joinSlash_cons_snoc x rest y

/-- A path whose base name is `*`, read backwards: separators, then `*`, then
nothing or a separator. -/
theorem baseL_star_decomp (l : List Char) (hb : baseL l = ['*']) :
    ∃ d tw, l.reverse = tw ++ '*' :: d ∧ (∀ c ∈ tw, c = '/') ∧
      d.dropWhile (fun c => c ≠ '/') = d := by
  unfold baseL at hb
  split at hb
  · simp at hb
  · simp only [] at hb
    split at hb
    · simp at hb
    · have h1 := List.takeWhile_append_dropWhile (fun c => decide (c = '/')) l.reverse
      have h2 := List.takeWhile_append_dropWhile (fun c => decide (c ≠ '/'))
        (l.reverse.dropWhile (fun c => decide (c = '/')))
      have h3 : List.takeWhile (fun c => decide (c ≠ '/'))
          (l.reverse.dropWhile (fun c => decide (c = '/'))) = ['*'] := by
        have := congrArg List.reverse hb
        simpa using this
      rw [h3] at h2
      refine ⟨List.dropWhile (fun c => decide (c ≠ '/'))
          (l.reverse.dropWhile (fun c => decide (c = '/'))),
        List.takeWhile (fun c => decide (c = '/')) l.reverse, ?_, ?_, ?_⟩
      · rw [← h2] at h1
        exact h1.symm
      · intro c hc
        have := List.mem_takeWhile_imp hc
        simpa using this
      · exact List.dropWhile_idempotent _ _

theorem head_append_slash (a rest : List Char) :
    decide ((a ++ '/' :: rest).head? = some '/') = decide ((a ++ ['/']).head? = some '/') := by
  cases a <;> simp

/-- Cleaning a path that ends in a separator: the cleaned elements before it. -/
theorem cleanL_snoc_slash (a : List Char) :
    cleanL (a ++ ['/']) =
      if decide ((a ++ ['/']).head? = some '/') = true then
        '/' :: joinSlash ((splitSlash a).foldl
          (cleanStep (decide ((a ++ ['/']).head? = some '/'))) []).reverse
      else if ((splitSlash a).foldl
          (cleanStep (decide ((a ++ ['/']).head? = some '/'))) []).reverse = [] then ['.']
      else joinSlash ((splitSlash a).foldl
          (cleanStep (decide ((a ++ ['/']).head? = some '/'))) []).reverse := by
  have hne : a ++ ['/'] ≠ [] := by simp
  have hsplit : splitSlash (a ++ ['/']) = splitSlash a ++ [[]] := by
    rw [splitSlash_append_slash]; rfl
  unfold cleanL
  rw [if_neg hne]
  simp only [hsplit, List.foldl_append, List.foldl_cons, List.foldl_nil]
  have hstep : ∀ (r : Bool) (S : List (List Char)), cleanStep r S [] = S := by
    intro r S; simp [cleanStep]
  rw [hstep]

/-- Cleaning a path whose last element is `*`, possibly followed by separators:
the cleaned elements before it, then `*`. -/
theorem cleanL_snoc_star (a sl : List Char) (hsl : ∀ c ∈ sl, c = '/') :
    cleanL (a ++ '/' :: '*' :: sl) =
      if decide ((a ++ ['/']).head? = some '/') = true then
        '/' :: joinSlash (((splitSlash a).foldl
          (cleanStep (decide ((a ++ ['/']).head? = some '/'))) []).reverse ++ [['*']])
      else joinSlash (((splitSlash a).foldl
          (cleanStep (decide ((a ++ ['/']).head? = some '/'))) []).reverse ++ [['*']]) := by
  have hne : a ++ '/' :: '*' :: sl ≠ [] := by simp
  obtain ⟨X, hX, hXnil⟩ := splitSlash_star_slashes sl hsl
  have hsplit : splitSlash (a ++ '/' :: '*' :: sl) = splitSlash a ++ ['*'] :: X := by
    rw [splitSlash_append_slash, hX]
  unfold cleanL
  rw [if_neg hne]
  simp only [hsplit, List.foldl_append, List.foldl_cons, head_append_slash]
  have hstep : ∀ (r : Bool) (S : List (List Char)), cleanStep r S ['*'] = ['*'] :: S := by
    intro r S; simp [cleanStep]
  rw [hstep, foldl_cleanStep_nils _ X hXnil]
  simp

theorem cleanL_star_slashes (sl : List Char) (hsl : ∀ c ∈ sl, c = '/') :
    cleanL ('*' :: sl) = ['*'] := by
  obtain ⟨X, hX, hXnil⟩ := splitSlash_star_slashes sl hsl
  unfold cleanL
  have hstep : ∀ (r : Bool) (S : List (List Char)), cleanStep r S ['*'] = ['*'] :: S := by
    intro r S; simp [cleanStep]
  simp [hX, hstep, foldl_cleanStep_nils _ X hXnil, joinSlash]

/-- A cleaned path with base name `*` is `*`, `/*`, or its directory followed by `/*`. -/
theorem cleanL_base_star (l : List Char) (hc : cleanL l = l) (hb : baseL l = ['*']) :
    l = ['*'] ∨ l = ['/', '*'] ∨ l = dirL l ++ ['/', '*'] := by
  obtain ⟨d, tw, hrev, htw, hd⟩ := baseL_star_decomp l hb
  have hl : l = d.reverse ++ '*' :: tw.reverse := by
    have := congrArg List.reverse hrev
    simpa using this
  have hsl : ∀ c ∈ tw.reverse, c = '/' := by
    intro c hc'; exact htw c (List.mem_reverse.mp hc')
  cases d with
  | nil =>
    left
    rw [← hc, hl]
    simpa using cleanL_star_slashes tw.reverse hsl
  | cons c d' =>
    have hcs : c = '/' := by
      by_contra hne
      have : (List.dropWhile (fun c => decide (c ≠ '/')) (c :: d')).length ≤ d'.length := by
        rw [List.dropWhile_cons_of_pos (by simpa using hne)]
        exact (List.dropWhile_sublist _).length_le
      rw [hd] at this
      simp at this
    subst hcs
    have hl2 : l = d'.reverse ++ '/' :: '*' :: tw.reverse := by
      rw [hl]; simp
    have hcl := cleanL_snoc_star d'.reverse tw.reverse hsl
    rw [← hl2, hc] at hcl
    -- the cleaned path ends in `*`, so there are no trailing separators
    have htw0 : tw = [] := by
      cases tw with
      | nil => rfl
      | cons t tw' =>
        exfalso
        have ht : t = '/' := htw t (List.mem_cons_self _ _)
        have hr := congrArg List.reverse hcl
        rw [hrev] at hr
        split at hr
        · simp [joinSlash_snoc] at hr
          split at hr <;> simp [ht] at hr
        · simp [joinSlash_snoc] at hr
          split at hr <;> simp [ht] at hr
    subst htw0
    have hdir : dirL l = cleanL (d'.reverse ++ ['/']) := by
      unfold dirL
      rw [hrev]
      simp [List.dropWhile]
    rw [hdir, cleanL_snoc_slash]
    generalize hS : (List.foldl (cleanStep (decide ((d'.reverse ++ ['/']).head? = some '/'))) []
      (splitSlash d'.reverse)) = S at hcl ⊢
    generalize hR : decide ((d'.reverse ++ ['/']).head? = some '/') = R at hcl ⊢
    right
    cases R with
    | true =>
      simp only [if_true] at hcl ⊢
      by_cases hS0 : S = []
      · left
        rw [hcl, hS0]
        simp [joinSlash]
      · right
        have hS1 : S.reverse ≠ [] := by simpa using hS0
        rw [hcl, joinSlash_snoc, if_neg hS1]
        simp
    | false =>
      simp only [Bool.false_eq_true, if_false] at hcl ⊢
      by_cases hS0 : S = []
      · exfalso
        rw [hS0] at hcl
        rw [hl2] at hcl
        have := congrArg List.length hcl
        simp [joinSlash] at this
      · right
        have hS1 : S.reverse ≠ [] := by simpa using hS0
        rw [if_neg hS1]
        rw [hcl, joinSlash_snoc, if_neg hS1]

theorem Base_dir_star (p : String) : Base (Dir p ++ "/*") = "*" := by
  apply String.ext
  simp [Base, baseL, String.data_append]

/-- A cleaned path with base name `*` is `*`, `/*`, or its directory followed by `/*`. -/
theorem clean_base_star (p : String) (hc : Clean p = p) (hb : Base p = "*") :
    p = "*" ∨ p = "/*" ∨ p = Dir p ++ "/*" := by
  have hc2 : cleanL p.data = p.data := by
    have := congrArg String.data hc
    simpa [Clean] using this
  have hb2 : baseL p.data = ['*'] := by
    have := congrArg String.data hb
    simpa [Base] using this
  rcases cleanL_base_star p.data hc2 hb2 with h | h | h
  · left; apply String.ext; simpa using h
  · right; left; apply String.ext; simpa using h
  · right; right; apply String.ext
    rw [String.data_append]
    simpa [Dir] using h

/-! ## Maps -/

theorem mapGet_mapSet {V : Type} (m : GoMap V) (k : String) (v : V) (k' : String) :
    mapGet (mapSet m k v) k' = if k = k' then some v else mapGet m k' := by
  induction m with
  | nil => simp [mapSet, mapGet]
  | cons kv rest ih =>
    obtain ⟨k0, v0⟩ := kv
    by_cases h0 : k0 = k
    · subst h0
      by_cases h1 : k0 = k' <;> simp [mapSet, mapGet, h1]
    · by_cases h1 : k = k'
      · subst h1
        simp [mapSet, mapGet, h0, ih]
      · by_cases h2 : k0 = k'
        · subst h2
          simp [mapSet, mapGet, h0, h1]
        · simp [mapSet, mapGet, h0, h1, h2, ih]

theorem mapKeys_mapSet_of_mem {V : Type} (m : GoMap V) (k : String) (v : V)
    (h : k ∈ mapKeys m) : mapKeys (mapSet m k v) = mapKeys m := by
  induction m with
  | nil => simp [mapKeys] at h
  | cons kv rest ih =>
    obtain ⟨k0, v0⟩ := kv
    by_cases h0 : k0 = k
    · simp [mapSet, mapKeys, h0]
    · have hmem : k ∈ mapKeys rest := by
        simp only [mapKeys, List.map_cons, List.mem_cons] at h
        rcases h with h | h
        · exact absurd h.symm h0
        · exact h
      have := ih hmem
      simp only [mapKeys] at this
      simp [mapSet, mapKeys, h0, this]

theorem mapGet_eq_none_iff {V : Type} (m : GoMap V) (k : String) :
    mapGet m k = none ↔ k ∉ mapKeys m := by
  induction m with
  | nil => simp [mapGet, mapKeys]
  | cons kv rest ih =>
    obtain ⟨k0, v0⟩ := kv
    by_cases h0 : k0 = k
    · simp [mapGet, mapKeys, h0]
    · have h1 : ¬ k = k0 := fun e => h0 e.symm
      simp only [mapKeys] at ih
      simp [mapGet, mapKeys, h0, h1, ih]

theorem mem_of_mapGet {V : Type} (m : GoMap V) (k : String) (v : V)
    (h : mapGet m k = some v) : (k, v) ∈ m := by
  induction m with
  | nil => simp [mapGet] at h
  | cons kv rest ih =>
    obtain ⟨k0, v0⟩ := kv
    by_cases h0 : k0 = k
    · simp only [mapGet, h0, if_true, Option.some.injEq] at h
      simp [h0, h]
    · simp only [mapGet, h0, if_false] at h
      exact List.mem_cons_of_mem _ (ih h)

theorem mapGet_of_mem_nodup {V : Type} (m : GoMap V) (k : String) (v : V)
    (hnd : (mapKeys m).Nodup) (h : (k, v) ∈ m) : mapGet m k = some v := by
  induction m with
  | nil => simp at h
  | cons kv rest ih =>
    obtain ⟨k0, v0⟩ := kv
    simp only [mapKeys, List.map_cons, List.nodup_cons] at hnd
    rcases List.mem_cons.mp h with h | h
    · cases h
      simp [mapGet]
    · have hk : k ∈ mapKeys rest := by
        simp only [mapKeys, List.mem_map]
        exact ⟨(k, v), h, rfl⟩
      have h0 : ¬ k0 = k := by
        intro e
        subst e
        exact hnd.1 hk
      simp only [mapGet, h0, if_false]
      exact ih hnd.2 h

theorem checkRequired_eq_none_iff (r : GoMap Bool) :
    checkRequired r = none ↔ ∀ kv ∈ r, kv.2 = true := by
  induction r with
  | nil => simp [checkRequired]
  | cons kv rest ih =>
    obtain ⟨k, v⟩ := kv
    cases v <;> simp [checkRequired, ih]

theorem checkRequired_cases (r : GoMap Bool) :
    checkRequired r = none ∨ checkRequired r = some ErrMissingMetadataElem := by
  induction r with
  | nil => simp [checkRequired]
  | cons kv rest ih =>
    obtain ⟨k, v⟩ := kv
    cases v <;> simp [checkRequired, ih]

/-! ## The entry matcher -/

/-- The recursion of `processEntry` unfolds to at most two table lookups. -/
theorem processEntry_eq_twoLookups (mh : MetadataArtifactHeader) (entry : String)
    (isDir : Bool) (required : GoMap Bool) :
    mh.processEntry entry isDir required = processEntryTwoLookups mh entry isDir required := by
  rw [MetadataArtifactHeader.processEntry, processEntryTwoLookups]
  cases h : mapGet mh.Artifacts entry with
  | some elem => simp [checkElem]
  | none =>
    simp only []
    split
    · rfl
    · rw [MetadataArtifactHeader.processEntry]
      cases h2 : mapGet mh.Artifacts (Dir entry ++ "/*") with
      | some elem => simp [checkElem]
      | none => simp [Base_dir_star]

theorem checkElem_fst (k : String) (elem : MetadataDirEntry) (d : Bool) (r : GoMap Bool) :
    (checkElem k elem d r).1 = if d = elem.isDir then none else some ErrInvalidMetadataElemType := by
  unfold checkElem
  by_cases h : d = elem.isDir
  · by_cases h2 : elem.required = true <;> simp [h, h2]
  · simp [h]

/-! ## The table `MetadataHeaderFormat` -/

/-- No key of the table has a parent whose `*` pattern is another key. -/
theorem keys_unambiguous :
    ∀ k ∈ mapKeys MetadataHeaderFormat,
      mapGet MetadataHeaderFormat (Dir k ++ "/*") ≠ none → Dir k ++ "/*" = k := by
  decide

/-- On a cleaned path the guard on the base name `*` never hides a wildcard match. -/
theorem wildcard_guard (p : String) (hc : IsClean p) (h1 : mapGet MetadataHeaderFormat p = none)
    (h2 : Base p = "*") : mapGet MetadataHeaderFormat (Dir p ++ "/*") = none := by
  rcases clean_base_star p hc h2 with h | h | h
  · subst h; decide
  · subst h; decide
  · rw [← h]; exact h1

/-- On a cleaned path `processEntry` looks up the path and, when it is absent, the
`*` pattern of its parent. -/
theorem processEntry_clean (p : String) (d : Bool) (r : GoMap Bool) (hc : IsClean p) :
    headerFormat.processEntry p d r =
      match mapGet MetadataHeaderFormat p with
      | some elem => checkElem p elem d r
      | none =>
        match mapGet MetadataHeaderFormat (Dir p ++ "/*") with
        | some elem => checkElem (Dir p ++ "/*") elem d r
        | none => (some ErrUnsupportedElement, r) := by
  rw [processEntry_eq_twoLookups, processEntryTwoLookups]
  show (match mapGet MetadataHeaderFormat p with
      | some elem => checkElem p elem d r
      | none => _) = _
  cases h1 : mapGet MetadataHeaderFormat p with
  | some elem => rfl
  | none =>
    simp only []
    by_cases h2 : Base p = "*"
    · rw [if_pos h2, wildcard_guard p hc h1 h2]
    · rw [if_neg h2]
      rfl

/-- A cleaned path that has pattern `k` as a candidate is checked against the
table entry of `k`. -/
theorem processEntry_of_matchesPath (p k : String) (elem : MetadataDirEntry) (d : Bool)
    (r : GoMap Bool) (hc : IsClean p) (hp : MatchesPath p k)
    (hk : mapGet MetadataHeaderFormat k = some elem) :
    headerFormat.processEntry p d r = checkElem k elem d r := by
  rw [processEntry_clean p d r hc]
  cases h1 : mapGet MetadataHeaderFormat p with
  | some elem' =>
    have hkp : k = p := by
      rcases hp with hp | hp
      · exact hp
      · have hmem : p ∈ mapKeys MetadataHeaderFormat := mem_mapKeys_of_mapGet _ _ _ h1
        have := keys_unambiguous p hmem (by rw [← hp, hk]; simp)
        rw [hp, this]
    subst hkp
    rw [h1] at hk
    cases hk
    rfl
  | none =>
    have hkp : k = Dir p ++ "/*" := by
      rcases hp with hp | hp
      · rw [hp, h1] at hk; cases hk
      · exact hp
    subst hkp
    simp only [hk]

theorem processEntry_of_matches (e : WalkEntry) (k : String) (r : GoMap Bool)
    (hc : IsClean e.pth) (hm : Matches MetadataHeaderFormat e k) :
    headerFormat.processEntry e.pth e.isDir r =
      (none, if IsRequired MetadataHeaderFormat k then mapSet r k true else r) := by
  obtain ⟨hp, hk⟩ := hm
  unfold patternKind at hk
  cases hg : mapGet MetadataHeaderFormat k with
  | none => rw [hg] at hk; simp at hk
  | some elem =>
    rw [hg] at hk
    simp only [Option.map_some', Option.some.injEq] at hk
    rw [processEntry_of_matchesPath e.pth k elem e.isDir r hc hp hg]
    have hreq : IsRequired MetadataHeaderFormat k ↔ elem.required = true := by
      unfold IsRequired
      rw [hg]
      simp
    unfold checkElem
    by_cases hr : elem.required = true <;> simp [hk, hr, hreq]

theorem processEntry_of_kindMismatch (e : WalkEntry) (k : String) (r : GoMap Bool)
    (hc : IsClean e.pth) (hm : KindMismatch MetadataHeaderFormat e k) :
    headerFormat.processEntry e.pth e.isDir r = (some ErrInvalidMetadataElemType, r) := by
  obtain ⟨hp, hk⟩ := hm
  unfold patternKind at hk
  cases hg : mapGet MetadataHeaderFormat k with
  | none => rw [hg] at hk; simp at hk
  | some elem =>
    rw [hg] at hk
    simp only [Option.map_some', Option.some.injEq] at hk
    rw [processEntry_of_matchesPath e.pth k elem e.isDir r hc hp hg]
    unfold checkElem
    have : e.isDir ≠ elem.isDir := by
      rw [hk]; cases e.isDir <;> simp
    simp [this]

theorem processEntry_of_unresolvable (p : String) (d : Bool) (r : GoMap Bool)
    (hu : Unresolvable MetadataHeaderFormat p) :
    headerFormat.processEntry p d r = (some ErrUnsupportedElement, r) := by
  obtain ⟨h1, h2⟩ := hu
  rw [processEntry_eq_twoLookups, processEntryTwoLookups]
  show (match mapGet MetadataHeaderFormat p with
      | some elem => checkElem p elem d r
      | none => _) = _
  rw [h1]
  simp only []
  split
  · rfl
  · show (match mapGet MetadataHeaderFormat (Dir p ++ "/*") with
      | some elem => _
      | none => _) = _
    rw [h2]

/-- Every observed entry matches a pattern, or mismatches the kind of a candidate
pattern, or is unresolvable. -/
theorem entry_trichotomy (e : WalkEntry) :
    (∃ k ∈ mapKeys MetadataHeaderFormat, Matches MetadataHeaderFormat e k) ∨
    (∃ k ∈ mapKeys MetadataHeaderFormat, KindMismatch MetadataHeaderFormat e k) ∨
    Unresolvable MetadataHeaderFormat e.pth := by
  have key : ∀ k, MatchesPath e.pth k → ∀ elem, mapGet MetadataHeaderFormat k = some elem →
      (∃ k ∈ mapKeys MetadataHeaderFormat, Matches MetadataHeaderFormat e k) ∨
      (∃ k ∈ mapKeys MetadataHeaderFormat, KindMismatch MetadataHeaderFormat e k) := by
    intro k hp elem hk
    have hmem := mem_mapKeys_of_mapGet _ _ _ hk
    by_cases hd : elem.isDir = e.isDir
    · left
      exact ⟨k, hmem, hp, by simp [patternKind, hk, hd]⟩
    · right
      refine ⟨k, hmem, hp, ?_⟩
      simp only [patternKind, hk, Option.map_some', Option.some.injEq]
      revert hd
      cases elem.isDir <;> cases e.isDir <;> simp
  cases h1 : mapGet MetadataHeaderFormat e.pth with
  | some elem =>
    rcases key e.pth (Or.inl rfl) elem h1 with h | h
    · exact Or.inl h
    · exact Or.inr (Or.inl h)
  | none =>
    cases h2 : mapGet MetadataHeaderFormat (Dir e.pth ++ "/*") with
    | some elem =>
      rcases key _ (Or.inr rfl) elem h2 with h | h
      · exact Or.inl h
      · exact Or.inr (Or.inl h)
    | none => exact Or.inr (Or.inr ⟨h1, h2⟩)

/-! ## The walk and the required tracker -/

theorem initRequired_headerFormat :
    initRequired MetadataHeaderFormat [] =
      [("meta-data", false), ("type-info", false), ("signatures", false),
        ("signatures/*", false)] := by
  decide

/-- Every required pattern of the table starts in the tracker with value false. -/
theorem required_in_tracker (k : String) (hk : IsRequired MetadataHeaderFormat k) :
    k ∈ mapKeys (initRequired MetadataHeaderFormat []) ∧
      mapGet (initRequired MetadataHeaderFormat []) k = some false := by
  have hmem : k ∈ mapKeys MetadataHeaderFormat := by
    unfold IsRequired at hk
    cases hg : mapGet MetadataHeaderFormat k with
    | none => rw [hg] at hk; simp at hk
    | some elem => exact mem_mapKeys_of_mapGet _ _ _ hg
  have hall : ∀ k ∈ mapKeys MetadataHeaderFormat, IsRequired MetadataHeaderFormat k →
      k ∈ mapKeys (initRequired MetadataHeaderFormat []) ∧
        mapGet (initRequired MetadataHeaderFormat []) k = some false := by
    decide
  exact hall k hmem hk

/-- Every key of the initial tracker is a required pattern of the table. -/
theorem tracker_keys_required :
    ∀ k ∈ mapKeys (initRequired MetadataHeaderFormat []),
      k ∈ mapKeys MetadataHeaderFormat ∧ IsRequired MetadataHeaderFormat k := by
  decide

theorem tracker_keys_nodup : (mapKeys (initRequired MetadataHeaderFormat [])).Nodup := by
  decide

theorem walk_cons_ok (mh : MetadataArtifactHeader) (e : WalkEntry) (rest : List WalkEntry)
    (r r1 : GoMap Bool) (h : mh.processEntry e.pth e.isDir r = (none, r1)) :
    mh.walk (e :: rest) r = mh.walk rest r1 := by
  rw [MetadataArtifactHeader.walk, h]

theorem walk_cons_err (mh : MetadataArtifactHeader) (e : WalkEntry) (rest : List WalkEntry)
    (r r1 : GoMap Bool) (err : Err) (h : mh.processEntry e.pth e.isDir r = (some err, r1)) :
    mh.walk (e :: rest) r = (some err, r1) := by
  rw [MetadataArtifactHeader.walk, h]

/-- A walk over entries that all match a pattern completes without error; it keeps
the keys of the tracker, sets the required patterns that were matched and leaves
every pattern that no entry matched as it was. -/
theorem walk_all_match (es : List WalkEntry) (r : GoMap Bool)
    (hes : ∀ e ∈ es, IsClean e.pth ∧
      ∃ k ∈ mapKeys MetadataHeaderFormat, Matches MetadataHeaderFormat e k)
    (hr : ∀ k, IsRequired MetadataHeaderFormat k → k ∈ mapKeys r) :
    ∃ r', headerFormat.walk es r = (none, r') ∧ mapKeys r' = mapKeys r ∧
      (∀ k, IsRequired MetadataHeaderFormat k →
        (∃ e ∈ es, Matches MetadataHeaderFormat e k) → mapGet r' k = some true) ∧
      (∀ k, mapGet r k = some true → mapGet r' k = some true) ∧
      (∀ k, (∀ e ∈ es, ¬ Matches MetadataHeaderFormat e k) → mapGet r' k = mapGet r k) := by
  induction es generalizing r with
  | nil =>
    refine ⟨r, rfl, rfl, ?_, fun _ h => h, fun _ _ => rfl⟩
    intro k _ hex
    obtain ⟨e, he, _⟩ := hex
    simp at he
  | cons e rest ih =>
    obtain ⟨hc, k1, _, hm1⟩ := hes e (List.mem_cons_self _ _)
    have hstep := processEntry_of_matches e k1 r hc hm1
    have hkeys1 : mapKeys (if IsRequired MetadataHeaderFormat k1 then mapSet r k1 true else r)
        = mapKeys r := by
      by_cases hreq : IsRequired MetadataHeaderFormat k1
      · rw [if_pos hreq]
        exact mapKeys_mapSet_of_mem r k1 true (hr k1 hreq)
      · rw [if_neg hreq]
    obtain ⟨r', hw, hk', ha, hb, hcc⟩ :=
      ih (if IsRequired MetadataHeaderFormat k1 then mapSet r k1 true else r)
        (fun e' he' => hes e' (List.mem_cons_of_mem _ he'))
        (fun k hk => by rw [hkeys1]; exact hr k hk)
    refine ⟨r', ?_, ?_, ?_, ?_, ?_⟩
    · rw [walk_cons_ok headerFormat e rest r _ hstep]
      exact hw
    · rw [hk', hkeys1]
    · intro k hreq hex
      obtain ⟨e', he', hm'⟩ := hex
      rcases List.mem_cons.mp he' with h | h
      · subst h
        have hstep2 := processEntry_of_matches e' k r hc hm'
        rw [hstep] at hstep2
        have heq := (Prod.mk.inj hstep2).2
        apply hb
        rw [heq, if_pos hreq, mapGet_mapSet]
        simp
      · exact ha k hreq ⟨e', h, hm'⟩
    · intro k hk
      apply hb
      by_cases hreq : IsRequired MetadataHeaderFormat k1
      · rw [if_pos hreq, mapGet_mapSet]
        by_cases h : k1 = k
        · simp [h]
        · simp [h, hk]
      · rw [if_neg hreq]
        exact hk
    · intro k hno
      rw [hcc k (fun e' he' => hno e' (List.mem_cons_of_mem _ he'))]
      by_cases hreq : IsRequired MetadataHeaderFormat k1
      · rw [if_pos hreq, mapGet_mapSet]
        have hne : ¬ k1 = k := by
          intro h
          subst h
          exact hno e (List.mem_cons_self _ _) hm1
        simp [hne]
      · rw [if_neg hreq]

/-- A walk in which every entry before `x` gives nil or the error `err`, and `x`
gives `err`, ends with `err`. -/
theorem walk_first_error (mh : MetadataArtifactHeader) (err : Err) (pre : List WalkEntry)
    (x : WalkEntry) (post : List WalkEntry) (r : GoMap Bool)
    (hpre : ∀ y ∈ pre, ∀ r1, (mh.processEntry y.pth y.isDir r1).1 = none ∨
      (mh.processEntry y.pth y.isDir r1).1 = some err)
    (hx : ∀ r1, (mh.processEntry x.pth x.isDir r1).1 = some err) :
    (mh.walk (pre ++ x :: post) r).1 = some err := by
  induction pre generalizing r with
  | nil =>
    have h := hx r
    cases hp : mh.processEntry x.pth x.isDir r with
    | mk o r1 =>
      rw [hp] at h
      simp only at h
      subst h
      rw [List.nil_append, walk_cons_err mh x post r r1 err hp]
  | cons y rest ih =>
    have h := hpre y (List.mem_cons_self _ _) r
    cases hp : mh.processEntry y.pth y.isDir r with
    | mk o r1 =>
      rw [hp] at h
      simp only at h
      rcases h with h | h
      · subst h
        rw [List.cons_append, walk_cons_ok mh y _ r r1 hp]
        exact ih r1 (fun y' hy' => hpre y' (List.mem_cons_of_mem _ hy'))
      · subst h
        rw [List.cons_append, walk_cons_err mh y _ r r1 err hp]

theorem checkHeaderStructure_of_walk_error (mh : MetadataArtifactHeader)
    (es : List WalkEntry) (err : Err)
    (h : (mh.walk es (initRequired mh.Artifacts [])).1 = some err) :
    mh.CheckHeaderStructure es = some err := by
  cases hw : mh.walk es (initRequired mh.Artifacts []) with
  | mk o r1 =>
    rw [hw] at h
    simp only at h
    subst h
    simp only [MetadataArtifactHeader.CheckHeaderStructure, hw]

theorem checkHeaderStructure_of_walk_ok (mh : MetadataArtifactHeader)
    (es : List WalkEntry) (r' : GoMap Bool)
    (h : mh.walk es (initRequired mh.Artifacts []) = (none, r')) :
    mh.CheckHeaderStructure es = checkRequired r' := by
  simp only [MetadataArtifactHeader.CheckHeaderStructure, h]

/-- The directory of a path without separator is `.`. -/
theorem Dir_of_no_slash (p : String) (h : '/' ∉ p.data) : Dir p = "." := by
  apply String.ext
  have hdrop : List.dropWhile (fun c => decide (c ≠ '/')) p.data.reverse = [] := by
    rw [List.dropWhile_eq_nil_iff]
    intro c hc
    have : c ≠ '/' := by
      intro e
      subst e
      exact h (List.mem_reverse.mp hc)
    simpa using this
  show dirL p.data = ['.']
  unfold dirL
  rw [hdrop]
  rfl

/-! ## More on maps -/

theorem mapKeys_mapSet {V : Type} (m : GoMap V) (k : String) (v : V) :
    mapKeys (mapSet m k v) = if k ∈ mapKeys m then mapKeys m else mapKeys m ++ [k] := by
  by_cases h : k ∈ mapKeys m
  · rw [if_pos h, mapKeys_mapSet_of_mem m k v h]
  · rw [if_neg h]
    induction m with
    | nil => simp [mapSet, mapKeys]
    | cons kv rest ih =>
      obtain ⟨k0, v0⟩ := kv
      have h0 : ¬ k0 = k := by
        intro e
        apply h
        simp [mapKeys, e]
      have hrest : k ∉ mapKeys rest := by
        intro hmem
        apply h
        simp only [mapKeys] at hmem
        simp [mapKeys, hmem]
      have := ih hrest
      simp only [mapKeys] at this
      simp [mapSet, mapKeys, h0, this]

theorem nodup_mapSet {V : Type} (m : GoMap V) (k : String) (v : V)
    (h : (mapKeys m).Nodup) : (mapKeys (mapSet m k v)).Nodup := by
  rw [mapKeys_mapSet]
  by_cases hk : k ∈ mapKeys m
  · rw [if_pos hk]; exact h
  · rw [if_neg hk]
    rw [List.nodup_append]
    refine ⟨h, List.nodup_singleton k, ?_⟩
    intro a ha hb
    rw [List.mem_singleton] at hb
    subst hb
    exact hk ha

theorem mem_mapKeys_mapSet {V : Type} (m : GoMap V) (k : String) (v : V) (k' : String) :
    k' ∈ mapKeys (mapSet m k v) ↔ k' = k ∨ k' ∈ mapKeys m := by
  rw [mapKeys_mapSet]
  by_cases hk : k ∈ mapKeys m
  · rw [if_pos hk]
    constructor
    · intro h; exact Or.inr h
    · intro h
      rcases h with h | h
      · rw [h]; exact hk
      · exact h
  · rw [if_neg hk]
    simp only [List.mem_append, List.mem_singleton]
    tauto

/-- On a map without repeated keys, lookup and membership of pairs agree. -/
theorem mem_iff_mapGet {V : Type} (m : GoMap V) (hnd : (mapKeys m).Nodup) (k : String) (v : V) :
    (k, v) ∈ m ↔ mapGet m k = some v :=
  ⟨mapGet_of_mem_nodup m k v hnd, mem_of_mapGet m k v⟩

/-- The last loop of `CheckHeaderStructure` depends only on the set of pairs. -/
theorem checkRequired_of_mem_iff (r r' : GoMap Bool) (h : ∀ kv, kv ∈ r ↔ kv ∈ r') :
    checkRequired r = checkRequired r' := by
  rcases checkRequired_cases r with h1 | h1 <;> rcases checkRequired_cases r' with h2 | h2
  · rw [h1, h2]
  · exfalso
    have := (checkRequired_eq_none_iff r).mp h1
    have h3 : checkRequired r' = none :=
      (checkRequired_eq_none_iff r').mpr (fun kv hkv => this kv ((h kv).mpr hkv))
    rw [h2] at h3
    cases h3
  · exfalso
    have := (checkRequired_eq_none_iff r').mp h2
    have h3 : checkRequired r = none :=
      (checkRequired_eq_none_iff r).mpr (fun kv hkv => this kv ((h kv).mp hkv))
    rw [h1] at h3
    cases h3
  · rw [h1, h2]

/-- On maps without repeated keys the last loop depends only on the lookups. -/
theorem checkRequired_congr (r r' : GoMap Bool) (hnd : (mapKeys r).Nodup)
    (hnd' : (mapKeys r').Nodup) (h : ∀ k, mapGet r k = mapGet r' k) :
    checkRequired r = checkRequired r' := by
  apply checkRequired_of_mem_iff
  intro kv
  obtain ⟨k, v⟩ := kv
  rw [mem_iff_mapGet r hnd, mem_iff_mapGet r' hnd', h]

theorem mapGet_foldl_mapSet (K : List String) (r : GoMap Bool) (k : String) :
    mapGet (K.foldl (fun acc key => mapSet acc key true) r) k =
      if k ∈ K then some true else mapGet r k := by
  induction K generalizing r with
  | nil => simp
  | cons a rest ih =>
    rw [List.foldl_cons, ih, mapGet_mapSet]
    by_cases h1 : k ∈ rest
    · simp [h1]
    · by_cases h2 : a = k
      · subst h2; simp
      · have h3 : ¬ k = a := fun e => h2 e.symm
        simp [h1, h2, h3]

theorem nodup_foldl_mapSet (K : List String) (r : GoMap Bool) (h : (mapKeys r).Nodup) :
    (mapKeys (K.foldl (fun acc key => mapSet acc key true) r)).Nodup := by
  induction K generalizing r with
  | nil => exact h
  | cons a rest ih =>
    rw [List.foldl_cons]
    exact ih _ (nodup_mapSet r a true h)

theorem initRequired_nodup (tbl : GoMap MetadataDirEntry) (acc : GoMap Bool)
    (h : (mapKeys acc).Nodup) : (mapKeys (initRequired tbl acc)).Nodup := by
  induction tbl generalizing acc with
  | nil => exact h
  | cons kv rest ih =>
    obtain ⟨k, v⟩ := kv
    unfold initRequired
    split
    · exact ih _ (nodup_mapSet acc k false h)
    · exact ih _ h

/-! ## The entry matcher on any table -/

theorem processEntry_resolveKey (mh : MetadataArtifactHeader) (p : String) (d : Bool)
    (r : GoMap Bool) :
    mh.processEntry p d r =
      match resolveKey mh p with
      | none => (some ErrUnsupportedElement, r)
      | some k =>
        match mapGet mh.Artifacts k with
        | some elem => checkElem k elem d r
        | none => (some ErrUnsupportedElement, r) := by
  rw [processEntry_eq_twoLookups, processEntryTwoLookups, resolveKey]
  cases h1 : mapGet mh.Artifacts p with
  | some elem => simp [h1]
  | none =>
    by_cases hb : Base p = "*"
    · simp [hb]
    · cases h2 : mapGet mh.Artifacts (Dir p ++ "/*") with
      | some elem => simp [hb, h2]
      | none => simp [hb]

/-- The error of `processEntry` does not depend on `required`, and its effect on
`required` is the assignment of the tracked key. -/
theorem processEntry_uniform (mh : MetadataArtifactHeader) (p : String) (d : Bool)
    (r : GoMap Bool) :
    mh.processEntry p d r =
      ((mh.processEntry p d []).1, applyTracked (trackedKey mh p d) r) := by
  rw [processEntry_resolveKey mh p d r, processEntry_resolveKey mh p d [], trackedKey]
  cases h1 : resolveKey mh p with
  | none => simp [applyTracked]
  | some k =>
    dsimp only
    cases h2 : mapGet mh.Artifacts k with
    | none => simp [applyTracked]
    | some elem =>
      by_cases hd : d = elem.isDir
      · by_cases hr : elem.required = true
        · simp [checkElem, applyTracked, hd, hr]
        · simp [checkElem, applyTracked, hd, hr]
      · simp [checkElem, applyTracked, hd]

theorem processEntry_fst (mh : MetadataArtifactHeader) (p : String) (d : Bool)
    (r : GoMap Bool) : (mh.processEntry p d r).1 = (mh.processEntry p d []).1 := by
  rw [processEntry_uniform mh p d r]

theorem processEntry_snd (mh : MetadataArtifactHeader) (p : String) (d : Bool)
    (r : GoMap Bool) : (mh.processEntry p d r).2 = applyTracked (trackedKey mh p d) r := by
  rw [processEntry_uniform mh p d r]

/-- The errors `processEntry` can return. -/
theorem processEntry_error_cases (mh : MetadataArtifactHeader) (p : String) (d : Bool)
    (r : GoMap Bool) :
    (mh.processEntry p d r).1 = none ∨
    (mh.processEntry p d r).1 = some ErrInvalidMetadataElemType ∨
    (mh.processEntry p d r).1 = some ErrUnsupportedElement := by
  rw [processEntry_resolveKey mh p d r]
  cases h1 : resolveKey mh p with
  | none => simp
  | some k =>
    dsimp only
    cases h2 : mapGet mh.Artifacts k with
    | none => simp
    | some elem =>
      simp only [checkElem_fst]
      by_cases hd : d = elem.isDir <;> simp [hd]

/-- A key is tracked only for an entry that resolves, and it is the key found for
the entry, a required pattern of the table. -/
theorem trackedKey_some (mh : MetadataArtifactHeader) (p : String) (d : Bool) (k : String)
    (h : trackedKey mh p d = some k) :
    resolveKey mh p = some k ∧ IsRequired mh.Artifacts k ∧
      (mh.processEntry p d []).1 = none := by
  rw [processEntry_resolveKey mh p d []]
  unfold trackedKey at h
  cases h1 : resolveKey mh p with
  | none => rw [h1] at h; simp at h
  | some k' =>
    rw [h1] at h
    simp only at h
    cases h2 : mapGet mh.Artifacts k' with
    | none => rw [h2] at h; simp at h
    | some elem =>
      rw [h2] at h
      simp only at h
      by_cases hc : d = elem.isDir ∧ elem.required = true
      · rw [if_pos hc] at h
        cases h
        refine ⟨rfl, ?_, ?_⟩
        · simp [IsRequired, h2, hc.2]
        · simp [h2, checkElem_fst, hc.1]
      · rw [if_neg hc] at h
        cases h

theorem trackedKey_of_error (mh : MetadataArtifactHeader) (p : String) (d : Bool)
    (h : (mh.processEntry p d []).1 ≠ none) : trackedKey mh p d = none := by
  cases ht : trackedKey mh p d with
  | none => rfl
  | some k => exact absurd (trackedKey_some mh p d k ht).2.2 h

/-! ## The walk on any table -/

/-- A walk in which every entry resolves assigns the tracked keys, in order. -/
theorem walk_all_resolve (mh : MetadataArtifactHeader) (es : List WalkEntry)
    (h : ∀ e ∈ es, (mh.processEntry e.pth e.isDir []).1 = none) (r : GoMap Bool) :
    mh.walk es r =
      (none, (es.filterMap (fun e => trackedKey mh e.pth e.isDir)).foldl
        (fun acc key => mapSet acc key true) r) := by
  induction es generalizing r with
  | nil => rfl
  | cons e rest ih =>
    have he := h e (List.mem_cons_self _ _)
    have hstep : mh.processEntry e.pth e.isDir r =
        (none, applyTracked (trackedKey mh e.pth e.isDir) r) := by
      rw [processEntry_uniform mh e.pth e.isDir r, he]
    rw [walk_cons_ok mh e rest r _ hstep, ih (fun e' he' => h e' (List.mem_cons_of_mem _ he'))]
    cases ht : trackedKey mh e.pth e.isDir with
    | none => simp [List.filterMap_cons, ht, applyTracked]
    | some k => simp [List.filterMap_cons, ht, applyTracked]

/-- A walk that meets an entry that fails to resolve ends with an error of
`processEntry`, which is one of the two matcher errors. -/
theorem walk_some_fails (mh : MetadataArtifactHeader) (es : List WalkEntry)
    (h : ∃ e ∈ es, (mh.processEntry e.pth e.isDir []).1 ≠ none) (r : GoMap Bool) :
    (mh.walk es r).1 = some ErrInvalidMetadataElemType ∨
      (mh.walk es r).1 = some ErrUnsupportedElement := by
  induction es generalizing r with
  | nil =>
    obtain ⟨e, he, _⟩ := h
    simp at he
  | cons e rest ih =>
    cases hp : mh.processEntry e.pth e.isDir r with
    | mk o r1 =>
      cases o with
      | some err =>
        rw [walk_cons_err mh e rest r r1 err hp]
        have := processEntry_error_cases mh e.pth e.isDir r
        rw [hp] at this
        simpa using this
      | none =>
        rw [walk_cons_ok mh e rest r r1 hp]
        apply ih
        obtain ⟨e', he', hne⟩ := h
        rcases List.mem_cons.mp he' with h1 | h1
        · exfalso
          subst h1
          apply hne
          rw [← processEntry_fst mh e'.pth e'.isDir r, hp]
        · exact ⟨e', h1, hne⟩

theorem walk_fst_none_iff (mh : MetadataArtifactHeader) (es : List WalkEntry) (r : GoMap Bool) :
    (mh.walk es r).1 = none ↔ ∀ e ∈ es, (mh.processEntry e.pth e.isDir []).1 = none := by
  constructor
  · intro h
    by_contra hne
    push_neg at hne
    rcases walk_some_fails mh es hne r with h1 | h1
    · rw [h] at h1; cases h1
    · rw [h] at h1; cases h1
  · intro h
    rw [walk_all_resolve mh es h r]

/-- Entries that resolve are passed over by the walk. -/
theorem walk_append_resolved (mh : MetadataArtifactHeader) (pre rest : List WalkEntry)
    (h : ∀ y ∈ pre, (mh.processEntry y.pth y.isDir []).1 = none) (r : GoMap Bool) :
    mh.walk (pre ++ rest) r = mh.walk rest (mh.walk pre r).2 := by
  induction pre generalizing r with
  | nil => rfl
  | cons y ys ih =>
    have hy := h y (List.mem_cons_self _ _)
    have hstep : mh.processEntry y.pth y.isDir r =
        (none, applyTracked (trackedKey mh y.pth y.isDir) r) := by
      rw [processEntry_uniform mh y.pth y.isDir r, hy]
    rw [List.cons_append, walk_cons_ok mh y _ r _ hstep, walk_cons_ok mh y ys r _ hstep]
    exact ih (fun y' hy' => h y' (List.mem_cons_of_mem _ hy')) _

/-- At an entry that fails to resolve the walk returns what `processEntry` returns. -/
theorem walk_cons_fails (mh : MetadataArtifactHeader) (x : WalkEntry) (post : List WalkEntry)
    (h : (mh.processEntry x.pth x.isDir []).1 ≠ none) (r : GoMap Bool) :
    mh.walk (x :: post) r = mh.processEntry x.pth x.isDir r := by
  cases hp : mh.processEntry x.pth x.isDir r with
  | mk o r1 =>
    cases o with
    | some err => exact walk_cons_err mh x post r r1 err hp
    | none =>
      exfalso
      apply h
      rw [← processEntry_fst mh x.pth x.isDir r, hp]

/-- The error of the walk does not depend on the state of `required`. -/
theorem walk_fst_indep (mh : MetadataArtifactHeader) (es : List WalkEntry) (r r' : GoMap Bool) :
    (mh.walk es r).1 = (mh.walk es r').1 := by
  induction es generalizing r r' with
  | nil => rfl
  | cons e rest ih =>
    cases hp : mh.processEntry e.pth e.isDir r with
    | mk o r1 =>
      have hfst : (mh.processEntry e.pth e.isDir r').1 = o := by
        rw [processEntry_fst mh e.pth e.isDir r', ← processEntry_fst mh e.pth e.isDir r, hp]
      cases hp' : mh.processEntry e.pth e.isDir r' with
      | mk o' r1' =>
        rw [hp'] at hfst
        simp only at hfst
        subst hfst
        cases o' with
        | some err =>
          rw [walk_cons_err mh e rest r r1 err hp, walk_cons_err mh e rest r' r1' err hp']
        | none =>
          rw [walk_cons_ok mh e rest r r1 hp, walk_cons_ok mh e rest r' r1' hp']
          exact ih r1 r1'

/-- Without traversal errors the walk over callback invocations is the walk over
the observed entries. -/
theorem walkCalls_of_entries (mh : MetadataArtifactHeader) (es : List WalkEntry)
    (r : GoMap Bool) :
    walkCalls mh (es.map WalkEntry.toCall) r =
      (Outcome.returns ((mh.walk es r).1.map GoError.pkg), (mh.walk es r).2) := by
  induction es generalizing r with
  | nil => rfl
  | cons e rest ih =>
    cases hp : mh.processEntry e.pth e.isDir r with
    | mk o r1 =>
      cases o with
      | some err =>
        rw [walk_cons_err mh e rest r r1 err hp]
        simp [walkCalls, walkFn, WalkEntry.toCall, hp]
      | none =>
        rw [walk_cons_ok mh e rest r r1 hp, ← ih r1]
        simp [walkCalls, walkFn, WalkEntry.toCall, hp]

theorem checkHeaderStructureCalls_of_entries (mh : MetadataArtifactHeader)
    (es : List WalkEntry) :
    CheckHeaderStructureCalls mh (es.map WalkEntry.toCall) =
      Outcome.returns ((mh.CheckHeaderStructure es).map GoError.pkg) := by
  simp only [CheckHeaderStructureCalls, MetadataArtifactHeader.CheckHeaderStructure,
    walkCalls_of_entries]
  cases hw : mh.walk es (initRequired mh.Artifacts []) with
  | mk o r1 =>
    cases o with
    | some err => simp
    | none => simp

theorem mapSet_mapSet_same {V : Type} (m : GoMap V) (k : String) (v : V) :
    mapSet (mapSet m k v) k v = mapSet m k v := by
  induction m with
  | nil => simp [mapSet]
  | cons kv rest ih =>
    obtain ⟨k0, v0⟩ := kv
    by_cases h0 : k0 = k
    · simp [mapSet, h0]
    · simp [mapSet, h0, ih]

theorem processEntryFuel_two (mh : MetadataArtifactHeader) (entry : String) (isDir : Bool)
    (required : GoMap Bool) :
    processEntryFuel mh 2 entry isDir required =
      some (processEntryTwoLookups mh entry isDir required) := by
  unfold processEntryTwoLookups
  rw [processEntryFuel]
  cases h1 : mapGet mh.Artifacts entry with
  | some elem =>
    simp only [checkElem]
    by_cases hd : isDir = elem.isDir
    · by_cases hr : elem.required = true <;> simp [hd, hr]
    · simp [hd]
  | none =>
    by_cases hb : Base entry = "*"
    · simp [hb]
    · simp only [hb, if_false]
      rw [processEntryFuel]
      cases h2 : mapGet mh.Artifacts (Dir entry ++ "/*") with
      | some elem =>
        simp only [checkElem]
        by_cases hd : isDir = elem.isDir
        · by_cases hr : elem.required = true <;> simp [hd, hr]
        · simp [hd]
      | none => simp [Base_dir_star]

/-! ## Matching on `MetadataHeaderFormat` without assuming cleaned paths -/

/-- The key found for an entry that resolves is a pattern the entry matches. -/
theorem matches_of_resolveKey (mh : MetadataArtifactHeader) (e : WalkEntry) (k : String)
    (hk : resolveKey mh e.pth = some k)
    (hres : (mh.processEntry e.pth e.isDir []).1 = none) :
    Matches mh.Artifacts e k := by
  have hpath : MatchesPath e.pth k := by
    unfold resolveKey at hk
    cases h1 : mapGet mh.Artifacts e.pth with
    | some elem =>
      rw [h1] at hk
      simp only [Option.some.injEq] at hk
      exact Or.inl hk.symm
    | none =>
      rw [h1] at hk
      dsimp only at hk
      by_cases hb : Base e.pth = "*"
      · rw [if_pos hb] at hk; cases hk
      · rw [if_neg hb] at hk
        cases h2 : mapGet mh.Artifacts (Dir e.pth ++ "/*") with
        | none => rw [h2] at hk; cases hk
        | some elem =>
          rw [h2] at hk
          simp only [Option.some.injEq] at hk
          exact Or.inr hk.symm
  refine ⟨hpath, ?_⟩
  rw [processEntry_resolveKey, hk] at hres
  dsimp only at hres
  cases h2 : mapGet mh.Artifacts k with
  | none => rw [h2] at hres; simp at hres
  | some elem =>
    rw [h2] at hres
    dsimp only at hres
    rw [checkElem_fst] at hres
    by_cases hd : e.isDir = elem.isDir
    · simp [patternKind, h2, hd]
    · rw [if_neg hd] at hres; cases hres

/-- An entry that resolves has a key found for it. -/
theorem resolveKey_of_resolves (mh : MetadataArtifactHeader) (p : String) (d : Bool)
    (hres : (mh.processEntry p d []).1 = none) : ∃ k, resolveKey mh p = some k := by
  rw [processEntry_resolveKey] at hres
  cases h1 : resolveKey mh p with
  | none => rw [h1] at hres; simp at hres
  | some k => exact ⟨k, rfl⟩

/-- On `MetadataHeaderFormat` an entry that resolves matches one pattern only: the
key found for it. -/
theorem resolveKey_of_matches (e : WalkEntry) (k : String)
    (hm : Matches MetadataHeaderFormat e k)
    (hres : (headerFormat.processEntry e.pth e.isDir []).1 = none) :
    resolveKey headerFormat e.pth = some k := by
  obtain ⟨hpath, hkind⟩ := hm
  have hkey : mapGet MetadataHeaderFormat k ≠ none := by
    intro h
    rw [patternKind, h] at hkind
    simp at hkind
  obtain ⟨k0, hk0⟩ := resolveKey_of_resolves headerFormat e.pth e.isDir hres
  rw [hk0]
  unfold resolveKey at hk0
  have hart : headerFormat.Artifacts = MetadataHeaderFormat := rfl
  rw [hart] at hk0
  cases h1 : mapGet MetadataHeaderFormat e.pth with
  | some elem =>
    rw [h1] at hk0
    simp only [Option.some.injEq] at hk0
    rcases hpath with hp | hp
    · rw [← hk0, hp]
    · have hmem := mem_mapKeys_of_mapGet _ _ _ h1
      have := keys_unambiguous e.pth hmem (by rw [← hp]; exact hkey)
      rw [← hk0, hp, this]
  | none =>
    rw [h1] at hk0
    dsimp only at hk0
    rcases hpath with hp | hp
    · rw [hp] at hkey
      exact absurd h1 hkey
    · by_cases hb : Base e.pth = "*"
      · rw [if_pos hb] at hk0; cases hk0
      · rw [if_neg hb] at hk0
        cases h2 : mapGet MetadataHeaderFormat (Dir e.pth ++ "/*") with
        | none => rw [h2] at hk0; cases hk0
        | some elem =>
          rw [h2] at hk0
          simp only [Option.some.injEq] at hk0
          rw [← hk0, hp]

/-- On `MetadataHeaderFormat`, for an entry that resolves, the tracked key is the
required pattern the entry matches. -/
theorem trackedKey_iff_matches (e : WalkEntry) (k : String)
    (hres : (headerFormat.processEntry e.pth e.isDir []).1 = none) :
    trackedKey headerFormat e.pth e.isDir = some k ↔
      (Matches MetadataHeaderFormat e k ∧ IsRequired MetadataHeaderFormat k) := by
  constructor
  · intro h
    obtain ⟨h1, h2, _⟩ := trackedKey_some headerFormat e.pth e.isDir k h
    exact ⟨matches_of_resolveKey headerFormat e k h1 hres, h2⟩
  · intro h
    obtain ⟨hm, hreq⟩ := h
    have hk := resolveKey_of_matches e k hm hres
    obtain ⟨_, hkind⟩ := hm
    unfold trackedKey
    rw [hk]
    dsimp only
    have hart : headerFormat.Artifacts = MetadataHeaderFormat := rfl
    rw [hart]
    cases h2 : mapGet MetadataHeaderFormat k with
    | none => rw [patternKind, h2] at hkind; simp at hkind
    | some elem =>
      rw [patternKind, h2] at hkind
      simp only [Option.map_some', Option.some.injEq] at hkind
      rw [IsRequired, h2] at hreq
      simp only [Option.map_some', Option.some.injEq] at hreq
      simp [hkind, hreq]

/-- On `MetadataHeaderFormat`, when every entry resolves, `CheckHeaderStructure`
returns nil exactly when every required pattern is matched by some entry. -/
theorem checkHeaderStructure_resolved (es : List WalkEntry)
    (hres : ∀ e ∈ es, (headerFormat.processEntry e.pth e.isDir []).1 = none) :
    headerFormat.CheckHeaderStructure es = none ↔
      ∀ k ∈ mapKeys MetadataHeaderFormat, IsRequired MetadataHeaderFormat k →
        ∃ e ∈ es, Matches MetadataHeaderFormat e k := by
  have hw := walk_all_resolve headerFormat es hres (initRequired headerFormat.Artifacts [])
  rw [checkHeaderStructure_of_walk_ok headerFormat es _ hw]
  have hart : headerFormat.Artifacts = MetadataHeaderFormat := rfl
  rw [hart]
  have hnd := nodup_foldl_mapSet
    (es.filterMap (fun e => trackedKey headerFormat e.pth e.isDir))
    (initRequired MetadataHeaderFormat []) tracker_keys_nodup
  have hK : ∀ k, k ∈ es.filterMap (fun e => trackedKey headerFormat e.pth e.isDir) ↔
      ∃ e ∈ es, Matches MetadataHeaderFormat e k ∧ IsRequired MetadataHeaderFormat k := by
    intro k
    rw [List.mem_filterMap]
    constructor
    · rintro ⟨e, he, ht⟩
      exact ⟨e, he, (trackedKey_iff_matches e k (hres e he)).mp ht⟩
    · rintro ⟨e, he, hm⟩
      exact ⟨e, he, (trackedKey_iff_matches e k (hres e he)).mpr hm⟩
  rw [checkRequired_eq_none_iff]
  constructor
  · intro hall k _ hreq
    by_contra hno
    have hk : k ∉ es.filterMap (fun e => trackedKey headerFormat e.pth e.isDir) := by
      intro hmem
      obtain ⟨e, he, hm, _⟩ := (hK k).mp hmem
      exact hno ⟨e, he, hm⟩
    have hget := mapGet_foldl_mapSet
      (es.filterMap (fun e => trackedKey headerFormat e.pth e.isDir))
      (initRequired MetadataHeaderFormat []) k
    rw [if_neg hk, (required_in_tracker k hreq).2] at hget
    have := hall (k, false) (mem_of_mapGet _ k false hget)
    simp at this
  · intro hall kv hkv
    obtain ⟨k, v⟩ := kv
    have hget := mapGet_of_mem_nodup _ k v hnd hkv
    rw [mapGet_foldl_mapSet] at hget
    by_cases hk : k ∈ es.filterMap (fun e => trackedKey headerFormat e.pth e.isDir)
    · rw [if_pos hk] at hget
      cases hget
      rfl
    · exfalso
      rw [if_neg hk] at hget
      have hmem := mem_mapKeys_of_mapGet _ _ _ hget
      obtain ⟨hkT, hreq⟩ := tracker_keys_required k hmem
      obtain ⟨e, he, hm⟩ := hall k hkT hreq
      exact hk ((hK k).mpr ⟨e, he, hm, hreq⟩)

/-! ## Paths directly under a directory -/

theorem dropWhile_append_stop {α : Type} (p : α → Bool) (l : List α) (a : α) (rest : List α)
    (hl : ∀ x ∈ l, p x = true) (ha : p a = false) :
    List.dropWhile p (l ++ a :: rest) = a :: rest := by
  induction l with
  | nil => simp [List.dropWhile, ha]
  | cons x xs ih =>
    have hx : p x = true := hl x (List.mem_cons_self _ _)
    rw [List.cons_append, List.dropWhile_cons_of_pos hx]
    exact ih (fun y hy => hl y (List.mem_cons_of_mem _ hy))

theorem takeWhile_append_stop {α : Type} (p : α → Bool) (l : List α) (a : α) (rest : List α)
    (hl : ∀ x ∈ l, p x = true) (ha : p a = false) :
    List.takeWhile p (l ++ a :: rest) = l := by
  induction l with
  | nil => simp [List.takeWhile, ha]
  | cons x xs ih =>
    have hx : p x = true := hl x (List.mem_cons_self _ _)
    rw [List.cons_append, List.takeWhile_cons_of_pos hx]
    rw [ih (fun y hy => hl y (List.mem_cons_of_mem _ hy))]

/-- The directory of `parent/n`, for a name `n` without separator, is `Clean(parent/)`. -/
theorem Dir_child (parent n : String) (hn : '/' ∉ n.data) :
    Dir (parent ++ "/" ++ n) = Clean (parent ++ "/") := by
  apply String.ext
  show dirL (parent ++ "/" ++ n).data = cleanL (parent ++ "/").data
  have hdata : (parent ++ "/" ++ n).data = parent.data ++ '/' :: n.data := by
    simp [String.data_append]
  have hdata2 : (parent ++ "/").data = parent.data ++ ['/'] := by
    simp [String.data_append]
  unfold dirL
  rw [hdata, hdata2]
  have hrev : (parent.data ++ '/' :: n.data).reverse
      = n.data.reverse ++ '/' :: parent.data.reverse := by simp
  rw [hrev, dropWhile_append_stop]
  · simp
  · intro x hx
    have : x ≠ '/' := by
      intro e
      subst e
      exact hn (List.mem_reverse.mp hx)
    simpa using this
  · simp

/-- The base name of `parent/n`, for a non-empty name `n` without separator, is `n`. -/
theorem Base_child (parent n : String) (hn : '/' ∉ n.data) (hne : n ≠ "") :
    Base (parent ++ "/" ++ n) = n := by
  apply String.ext
  show baseL (parent ++ "/" ++ n).data = n.data
  have hdata : (parent ++ "/" ++ n).data = parent.data ++ '/' :: n.data := by
    simp [String.data_append]
  have hnd : n.data ≠ [] := by
    intro h
    apply hne
    apply String.ext
    rw [h]
  have hrev : (parent.data ++ '/' :: n.data).reverse
      = n.data.reverse ++ '/' :: parent.data.reverse := by simp
  have hall : ∀ x ∈ n.data.reverse, (decide (x ≠ '/')) = true := by
    intro x hx
    have : x ≠ '/' := by
      intro e
      subst e
      exact hn (List.mem_reverse.mp hx)
    simpa using this
  unfold baseL
  rw [hdata, hrev]
  have hne2 : parent.data ++ '/' :: n.data ≠ [] := by simp
  rw [if_neg hne2]
  cases hr : n.data.reverse with
  | nil =>
    exfalso
    apply hnd
    simpa using hr
  | cons c cs =>
    rw [hr] at hall
    have hc : c ≠ '/' := by
      have := hall c (List.mem_cons_self _ _)
      simpa using this
    have hdrop : List.dropWhile (fun c => decide (c = '/')) (c :: cs ++ '/' :: parent.data.reverse)
        = c :: cs ++ '/' :: parent.data.reverse := by
      rw [List.cons_append, List.dropWhile_cons_of_neg (by simpa using hc)]
    simp only [hdrop]
    rw [takeWhile_append_stop _ (c :: cs) '/' parent.data.reverse hall (by simp)]
    rw [← hr]
    simp [hnd]

/-! ## Independence of order -/

/-- After walks in which every entry resolves, the last loop gives the same result
for two sequences with the same entries and two starting maps with the same
lookups. -/
theorem checkRequired_walk_congr (mh : MetadataArtifactHeader) (es es' : List WalkEntry)
    (r0 r0' : GoMap Bool)
    (hall : ∀ e ∈ es, (mh.processEntry e.pth e.isDir []).1 = none)
    (hmem : ∀ e, e ∈ es ↔ e ∈ es')
    (hnd : (mapKeys r0).Nodup) (hnd' : (mapKeys r0').Nodup)
    (hget : ∀ k, mapGet r0 k = mapGet r0' k) :
    checkRequired (mh.walk es r0).2 = checkRequired (mh.walk es' r0').2 := by
  have hall' : ∀ e ∈ es', (mh.processEntry e.pth e.isDir []).1 = none :=
    fun e he => hall e ((hmem e).mpr he)
  rw [walk_all_resolve mh es hall r0, walk_all_resolve mh es' hall' r0']
  apply checkRequired_congr
  · exact nodup_foldl_mapSet _ _ hnd
  · exact nodup_foldl_mapSet _ _ hnd'
  · intro k
    rw [mapGet_foldl_mapSet, mapGet_foldl_mapSet, hget]
    have hK : k ∈ es.filterMap (fun e => trackedKey mh e.pth e.isDir) ↔
        k ∈ es'.filterMap (fun e => trackedKey mh e.pth e.isDir) := by
      simp only [List.mem_filterMap]
      constructor
      · rintro ⟨e, he, ht⟩; exact ⟨e, (hmem e).mp he, ht⟩
      · rintro ⟨e, he, ht⟩; exact ⟨e, (hmem e).mpr he, ht⟩
    by_cases h : k ∈ es.filterMap (fun e => trackedKey mh e.pth e.isDir)
    · rw [if_pos h, if_pos (hK.mp h)]
    · rw [if_neg h, if_neg (fun h' => h (hK.mpr h'))]

theorem initRequired_nil_nodup (tbl : GoMap MetadataDirEntry) :
    (mapKeys (initRequired tbl [])).Nodup :=
  initRequired_nodup tbl [] (by simp [mapKeys])

/-- When every entry resolves, the result is the same for every sequence with the
same entries. -/
theorem checkHeaderStructure_same_entries (mh : MetadataArtifactHeader)
    (es es' : List WalkEntry)
    (hall : ∀ e ∈ es, (mh.processEntry e.pth e.isDir []).1 = none)
    (hmem : ∀ e, e ∈ es ↔ e ∈ es') :
    mh.CheckHeaderStructure es = mh.CheckHeaderStructure es' := by
  have hall' : ∀ e ∈ es', (mh.processEntry e.pth e.isDir []).1 = none :=
    fun e he => hall e ((hmem e).mpr he)
  have h1 := walk_all_resolve mh es hall (initRequired mh.Artifacts [])
  have h2 := walk_all_resolve mh es' hall' (initRequired mh.Artifacts [])
  rw [checkHeaderStructure_of_walk_ok mh es _ h1, checkHeaderStructure_of_walk_ok mh es' _ h2]
  have := checkRequired_walk_congr mh es es' _ _ hall hmem
    (initRequired_nil_nodup mh.Artifacts) (initRequired_nil_nodup mh.Artifacts) (fun _ => rfl)
  rw [h1, h2] at this
  exact this

/-- When some entry fails to resolve, the result is one of the two matcher errors. -/
theorem checkHeaderStructure_some_fails (mh : MetadataArtifactHeader) (es : List WalkEntry)
    (h : ∃ e ∈ es, (mh.processEntry e.pth e.isDir []).1 ≠ none) :
    mh.CheckHeaderStructure es = some ErrInvalidMetadataElemType ∨
      mh.CheckHeaderStructure es = some ErrUnsupportedElement := by
  rcases walk_some_fails mh es h (initRequired mh.Artifacts []) with h1 | h1
  · exact Or.inl (checkHeaderStructure_of_walk_error mh es _ h1)
  · exact Or.inr (checkHeaderStructure_of_walk_error mh es _ h1)

/-! ## The initialisation loop -/

theorem mem_mapKeys_initRequired (tbl : GoMap MetadataDirEntry) (acc : GoMap Bool)
    (k : String) :
    k ∈ mapKeys (initRequired tbl acc) ↔
      (k ∈ mapKeys acc ∨ ∃ elem, (k, elem) ∈ tbl ∧ elem.required = true) := by
  induction tbl generalizing acc with
  | nil => simp [initRequired]
  | cons kv rest ih =>
    obtain ⟨k0, v0⟩ := kv
    unfold initRequired
    by_cases hr : v0.required = true
    · rw [if_pos hr, ih, mem_mapKeys_mapSet]
      constructor
      · rintro ((h | h) | ⟨elem, h1, h2⟩)
        · subst h
          exact Or.inr ⟨v0, List.mem_cons_self _ _, hr⟩
        · exact Or.inl h
        · exact Or.inr ⟨elem, List.mem_cons_of_mem _ h1, h2⟩
      · rintro (h | ⟨elem, h1, h2⟩)
        · exact Or.inl (Or.inr h)
        · rcases List.mem_cons.mp h1 with h3 | h3
          · cases h3
            exact Or.inl (Or.inl rfl)
          · exact Or.inr ⟨elem, h3, h2⟩
    · rw [if_neg hr, ih]
      constructor
      · rintro (h | ⟨elem, h1, h2⟩)
        · exact Or.inl h
        · exact Or.inr ⟨elem, List.mem_cons_of_mem _ h1, h2⟩
      · rintro (h | ⟨elem, h1, h2⟩)
        · exact Or.inl h
        · rcases List.mem_cons.mp h1 with h3 | h3
          · cases h3
            exact absurd h2 hr
          · exact Or.inr ⟨elem, h3, h2⟩

theorem mapGet_initRequired_of_required (tbl : GoMap MetadataDirEntry) (acc : GoMap Bool)
    (k : String) (h : ∃ elem, (k, elem) ∈ tbl ∧ elem.required = true) :
    mapGet (initRequired tbl acc) k = some false := by
  induction tbl generalizing acc with
  | nil =>
    obtain ⟨elem, h1, _⟩ := h
    simp at h1
  | cons kv rest ih =>
    obtain ⟨k0, v0⟩ := kv
    unfold initRequired
    by_cases hrest : ∃ elem, (k, elem) ∈ rest ∧ elem.required = true
    · split
      · exact ih _ hrest
      · exact ih _ hrest
    · obtain ⟨elem, h1, h2⟩ := h
      rcases List.mem_cons.mp h1 with h3 | h3
      · cases h3
        rw [if_pos h2]
        have hnot : ∀ acc', mapGet (initRequired rest acc') k = mapGet acc' k := by
          intro acc'
          clear ih h1
          induction rest generalizing acc' with
          | nil => rfl
          | cons kv2 rest2 ih2 =>
            obtain ⟨k2, v2⟩ := kv2
            have hrest2 : ¬ ∃ elem, (k, elem) ∈ rest2 ∧ elem.required = true := by
              rintro ⟨e, he1, he2⟩
              exact hrest ⟨e, List.mem_cons_of_mem _ he1, he2⟩
            unfold initRequired
            by_cases hr2 : v2.required = true
            · rw [if_pos hr2, ih2 hrest2, mapGet_mapSet]
              have hne : ¬ k2 = k := by
                intro e
                subst e
                exact hrest ⟨v2, List.mem_cons_self _ _, hr2⟩
              rw [if_neg hne]
            · rw [if_neg hr2, ih2 hrest2]
        rw [hnot, mapGet_mapSet]
        simp
      · exact absurd ⟨elem, h3, h2⟩ hrest

theorem mapGet_initRequired_of_not_required (tbl : GoMap MetadataDirEntry) (acc : GoMap Bool)
    (k : String) (h : ¬ ∃ elem, (k, elem) ∈ tbl ∧ elem.required = true) :
    mapGet (initRequired tbl acc) k = mapGet acc k := by
  induction tbl generalizing acc with
  | nil => rfl
  | cons kv rest ih =>
    obtain ⟨k0, v0⟩ := kv
    have hrest : ¬ ∃ elem, (k, elem) ∈ rest ∧ elem.required = true := by
      rintro ⟨e, he1, he2⟩
      exact h ⟨e, List.mem_cons_of_mem _ he1, he2⟩
    unfold initRequired
    by_cases hr : v0.required = true
    · rw [if_pos hr, ih _ hrest, mapGet_mapSet]
      have hne : ¬ k0 = k := by
        intro e
        subst e
        exact h ⟨v0, List.mem_cons_self _ _, hr⟩
      rw [if_neg hne]
    · rw [if_neg hr, ih _ hrest]

/-- In a table without repeated keys the required patterns are the keys of the
entries with the required flag. -/
theorem isRequired_iff_mem (tbl : GoMap MetadataDirEntry) (hnd : (mapKeys tbl).Nodup)
    (k : String) :
    IsRequired tbl k ↔ ∃ elem, (k, elem) ∈ tbl ∧ elem.required = true := by
  unfold IsRequired
  constructor
  · intro h
    cases hg : mapGet tbl k with
    | none => rw [hg] at h; simp at h
    | some elem =>
      rw [hg] at h
      exact ⟨elem, mem_of_mapGet tbl k elem hg, by simpa using h⟩
  · rintro ⟨elem, h1, h2⟩
    rw [mapGet_of_mem_nodup tbl k elem hnd h1]
    simp [h2]

/-- The initialisation loop gives the same lookups whatever order the table is
enumerated in. -/
theorem mapGet_initRequired_perm (tbl tbl' : GoMap MetadataDirEntry) (hperm : tbl.Perm tbl')
    (k : String) : mapGet (initRequired tbl []) k = mapGet (initRequired tbl' []) k := by
  by_cases h : ∃ elem, (k, elem) ∈ tbl ∧ elem.required = true
  · have h' : ∃ elem, (k, elem) ∈ tbl' ∧ elem.required = true := by
      obtain ⟨elem, h1, h2⟩ := h
      exact ⟨elem, hperm.mem_iff.mp h1, h2⟩
    rw [mapGet_initRequired_of_required tbl [] k h,
      mapGet_initRequired_of_required tbl' [] k h']
  · have h' : ¬ ∃ elem, (k, elem) ∈ tbl' ∧ elem.required = true := by
      rintro ⟨elem, h1, h2⟩
      exact h ⟨elem, hperm.mem_iff.mpr h1, h2⟩
    rw [mapGet_initRequired_of_not_required tbl [] k h,
      mapGet_initRequired_of_not_required tbl' [] k h']

/-! ## Enumeration order of maps -/

theorem mapGet_perm {V : Type} (m m' : GoMap V) (hnd : (mapKeys m).Nodup)
    (hperm : m.Perm m') (k : String) : mapGet m k = mapGet m' k := by
  have hnd' : (mapKeys m').Nodup := (hperm.map Prod.fst).nodup_iff.mp hnd
  cases h : mapGet m k with
  | some v =>
    have := mem_of_mapGet m k v h
    rw [mapGet_of_mem_nodup m' k v hnd' (hperm.mem_iff.mp this)]
  | none =>
    cases h' : mapGet m' k with
    | none => rfl
    | some v =>
      have := mem_of_mapGet m' k v h'
      rw [mapGet_of_mem_nodup m k v hnd (hperm.mem_iff.mpr this)] at h
      cases h

theorem checkRequired_perm (r r' : GoMap Bool) (hperm : r.Perm r') :
    checkRequired r = checkRequired r' :=
  checkRequired_of_mem_iff r r' (fun _ => hperm.mem_iff)

/-- The entry matcher depends on the table only through its lookups. -/
theorem processEntry_congr (mh mh' : MetadataArtifactHeader)
    (h : ∀ k, mapGet mh.Artifacts k = mapGet mh'.Artifacts k) (p : String) (d : Bool)
    (r : GoMap Bool) : mh.processEntry p d r = mh'.processEntry p d r := by
  rw [processEntry_eq_twoLookups, processEntry_eq_twoLookups, processEntryTwoLookups,
    processEntryTwoLookups, h p, h (Dir p ++ "/*")]

theorem walk_congr (mh mh' : MetadataArtifactHeader)
    (h : ∀ k, mapGet mh.Artifacts k = mapGet mh'.Artifacts k) (es : List WalkEntry)
    (r : GoMap Bool) : mh.walk es r = mh'.walk es r := by
  induction es generalizing r with
  | nil => rfl
  | cons e rest ih =>
    rw [MetadataArtifactHeader.walk, MetadataArtifactHeader.walk, processEntry_congr mh mh' h]
    cases mh'.processEntry e.pth e.isDir r with
    | mk o r1 =>
      cases o with
      | some err => rfl
      | none => exact ih r1

/-- The result of `CheckHeaderStructure` does not depend on the order in which the
first loop enumerates the table and the last loop enumerates `required`. -/
theorem checkHeaderStructureEnum_eq (mh : MetadataArtifactHeader)
    (tblOrder : GoMap MetadataDirEntry) (scan : GoMap Bool → GoMap Bool)
    (es : List WalkEntry) (hperm : tblOrder.Perm mh.Artifacts)
    (hscan : ∀ r, (scan r).Perm r) :
    CheckHeaderStructureEnum mh tblOrder scan es = mh.CheckHeaderStructure es := by
  by_cases hall : ∀ e ∈ es, (mh.processEntry e.pth e.isDir []).1 = none
  · have h1 := walk_all_resolve mh es hall (initRequired mh.Artifacts [])
    have h2 := walk_all_resolve mh es hall (initRequired tblOrder [])
    rw [checkHeaderStructure_of_walk_ok mh es _ h1]
    simp only [CheckHeaderStructureEnum, h2]
    rw [checkRequired_perm _ _ (hscan _)]
    have := checkRequired_walk_congr mh es es (initRequired tblOrder [])
      (initRequired mh.Artifacts []) hall (fun _ => Iff.rfl)
      (initRequired_nil_nodup tblOrder) (initRequired_nil_nodup mh.Artifacts)
      (mapGet_initRequired_perm tblOrder mh.Artifacts hperm)
    rw [h1, h2] at this
    exact this
  · have hne : (mh.walk es (initRequired mh.Artifacts [])).1 ≠ none := by
      intro h
      exact hall ((walk_fst_none_iff mh es _).mp h)
    have hfst := walk_fst_indep mh es (initRequired tblOrder []) (initRequired mh.Artifacts [])
    cases hw : mh.walk es (initRequired mh.Artifacts []) with
    | mk o r1 =>
      rw [hw] at hne hfst
      cases o with
      | none => exact absurd rfl hne
      | some err =>
        cases hw' : mh.walk es (initRequired tblOrder []) with
        | mk o' r1' =>
          rw [hw'] at hfst
          simp only at hfst
          subst hfst
          simp only [CheckHeaderStructureEnum, MetadataArtifactHeader.CheckHeaderStructure,
            hw, hw']

/-! ## `Metadata.Validate` -/

theorem metadata_validate_none_iff {α : Type} (d : GoMap (Option α)) :
    Metadata.Validate ⟨some d⟩ = none ↔
      ((∀ kv ∈ d, kv.2 ≠ none) ∧ "DeviceType" ∈ mapKeys d ∧ "ImageID" ∈ mapKeys d) := by
  unfold Metadata.Validate
  dsimp only
  cases hl : Metadata.validateLoop d none none with
  | none =>
    obtain ⟨kv, hkv, hv⟩ := (metadata_loop_none_iff d none none).mp hl
    constructor
    · intro h; cases h
    · rintro ⟨h, _, _⟩
      exact absurd hv (h kv hkv)
  | some res =>
    obtain ⟨dt, im⟩ := res
    have hnn : ∀ kv ∈ d, kv.2 ≠ none := by
      intro kv hkv hv
      have : Metadata.validateLoop d none none = none :=
        (metadata_loop_none_iff d none none).mpr ⟨kv, hkv, hv⟩
      rw [hl] at this
      cases this
    obtain ⟨h1, h2⟩ := metadata_loop_some d none none dt im hl
    dsimp only
    constructor
    · intro h
      by_cases hc : dt.isNone = true ∨ im.isNone = true
      · rw [if_pos hc] at h; cases h
      · push_neg at hc
        refine ⟨hnn, ?_, ?_⟩
        · by_contra hk
          exact hc.1 (h1.mpr ⟨rfl, hk⟩)
        · by_contra hk
          exact hc.2 (h2.mpr ⟨rfl, hk⟩)
    · rintro ⟨_, hk1, hk2⟩
      have hc : ¬ (dt.isNone = true ∨ im.isNone = true) := by
        rintro (h | h)
        · exact (h1.mp h).2 hk1
        · exact (h2.mp h).2 hk2
      rw [if_neg hc]

theorem metadata_validate_cases {α : Type} (m : Metadata α) :
    m.Validate = none ∨ m.Validate = some ErrInvalidMetadata := by
  unfold Metadata.Validate
  cases m.data with
  | none => exact Or.inr rfl
  | some d =>
    dsimp only
    cases Metadata.validateLoop d none none with
    | none => exact Or.inr rfl
    | some res =>
      obtain ⟨dt, im⟩ := res
      dsimp only
      split
      · exact Or.inr rfl
      · exact Or.inl rfl

/-- A walk that meets an entry that fails to resolve ends with the error of one of
the failing entries. -/
theorem walk_error_of_member (mh : MetadataArtifactHeader) (es : List WalkEntry)
    (h : ∃ e ∈ es, (mh.processEntry e.pth e.isDir []).1 ≠ none) (r : GoMap Bool) :
    ∃ e ∈ es, (mh.processEntry e.pth e.isDir []).1 ≠ none ∧
      (mh.walk es r).1 = (mh.processEntry e.pth e.isDir []).1 := by
  induction es generalizing r with
  | nil =>
    obtain ⟨e, he, _⟩ := h
    simp at he
  | cons x rest ih =>
    by_cases hx : (mh.processEntry x.pth x.isDir []).1 = none
    · have hstep : mh.processEntry x.pth x.isDir r =
          (none, applyTracked (trackedKey mh x.pth x.isDir) r) := by
        rw [processEntry_uniform mh x.pth x.isDir r, hx]
      have hrest : ∃ e ∈ rest, (mh.processEntry e.pth e.isDir []).1 ≠ none := by
        obtain ⟨e, he, hne⟩ := h
        rcases List.mem_cons.mp he with h1 | h1
        · subst h1
          exact absurd hx hne
        · exact ⟨e, h1, hne⟩
      obtain ⟨e, he, hne, hw⟩ := ih hrest (applyTracked (trackedKey mh x.pth x.isDir) r)
      refine ⟨e, List.mem_cons_of_mem _ he, hne, ?_⟩
      rw [walk_cons_ok mh x rest r _ hstep]
      exact hw
    · refine ⟨x, List.mem_cons_self _ _, hx, ?_⟩
      rw [walk_cons_fails mh x rest hx r, processEntry_fst]

/-- When some entry fails to resolve, the result is the error of one of the failing
entries. -/
theorem checkHeaderStructure_error_of_member (mh : MetadataArtifactHeader)
    (es : List WalkEntry) (h : ∃ e ∈ es, (mh.processEntry e.pth e.isDir []).1 ≠ none) :
    ∃ e ∈ es, (mh.processEntry e.pth e.isDir []).1 ≠ none ∧
      mh.CheckHeaderStructure es = (mh.processEntry e.pth e.isDir []).1 := by
  obtain ⟨e, he, hne, hw⟩ := walk_error_of_member mh es h (initRequired mh.Artifacts [])
  refine ⟨e, he, hne, ?_⟩
  cases herr : (mh.processEntry e.pth e.isDir []).1 with
  | none => exact absurd herr hne
  | some err =>
    rw [herr] at hw
    exact checkHeaderStructure_of_walk_error mh es err hw

/-- A header whose first entry fails to resolve gets the error of that entry. -/
theorem checkHeaderStructure_cons_fails (mh : MetadataArtifactHeader) (x : WalkEntry)
    (rest : List WalkEntry) (hx : (mh.processEntry x.pth x.isDir []).1 ≠ none) :
    mh.CheckHeaderStructure (x :: rest) = (mh.processEntry x.pth x.isDir []).1 := by
  cases herr : (mh.processEntry x.pth x.isDir []).1 with
  | none => exact absurd herr hx
  | some err =>
    apply checkHeaderStructure_of_walk_error
    rw [walk_cons_fails mh x rest hx, processEntry_fst, herr]

end metadata

/-! # The claims -/

/-- C1: with `mh.Artifacts = MetadataHeaderFormat`, for every header whose observed
entries (cleaned relative paths) each match a schema pattern, directly or through the
parent's `*` pattern, with the same kind, and in which every required pattern is
matched by at least one entry, `CheckHeaderStructure` returns nil; in particular it
does for the header `.`, `meta-data`, `type-info`, `signatures`, `signatures/sig1`. -/
theorem C1_complete_header_ok :
    (∀ es : List metadata.WalkEntry,
      (∀ e ∈ es, metadata.IsClean e.pth ∧
        ∃ k ∈ metadata.mapKeys metadata.MetadataHeaderFormat,
          metadata.Matches metadata.MetadataHeaderFormat e k) →
      (∀ k ∈ metadata.mapKeys metadata.MetadataHeaderFormat,
        metadata.IsRequired metadata.MetadataHeaderFormat k →
          ∃ e ∈ es, metadata.Matches metadata.MetadataHeaderFormat e k) →
      metadata.headerFormat.CheckHeaderStructure es = none) ∧
    metadata.headerFormat.CheckHeaderStructure
      [⟨".", true⟩, ⟨"meta-data", false⟩, ⟨"type-info", false⟩, ⟨"signatures", true⟩,
        ⟨"signatures/sig1", false⟩] = none := by
  have main : ∀ es : List metadata.WalkEntry,
      (∀ e ∈ es, metadata.IsClean e.pth ∧
        ∃ k ∈ metadata.mapKeys metadata.MetadataHeaderFormat,
          metadata.Matches metadata.MetadataHeaderFormat e k) →
      (∀ k ∈ metadata.mapKeys metadata.MetadataHeaderFormat,
        metadata.IsRequired metadata.MetadataHeaderFormat k →
          ∃ e ∈ es, metadata.Matches metadata.MetadataHeaderFormat e k) →
      metadata.headerFormat.CheckHeaderStructure es = none := by
    intro es hes hreq
    obtain ⟨r', hw, hk', ha, _, _⟩ :=
      metadata.walk_all_match es (metadata.initRequired metadata.MetadataHeaderFormat []) hes
        (fun k hk => (metadata.required_in_tracker k hk).1)
    rw [metadata.checkHeaderStructure_of_walk_ok metadata.headerFormat es r' hw,
      metadata.checkRequired_eq_none_iff]
    intro kv hkv
    obtain ⟨k, v⟩ := kv
    have hmem : k ∈ metadata.mapKeys r' := by
      simp only [metadata.mapKeys, List.mem_map]
      exact ⟨(k, v), hkv, rfl⟩
    have hnd : (metadata.mapKeys r').Nodup := by
      rw [hk']; exact metadata.tracker_keys_nodup
    rw [hk'] at hmem
    obtain ⟨hkT, hkreq⟩ := metadata.tracker_keys_required k hmem
    have h1 := ha k hkreq (hreq k hkT hkreq)
    have h2 := metadata.mapGet_of_mem_nodup r' k v hnd hkv
    rw [h1] at h2
    cases h2
    rfl
  refine ⟨main, ?_⟩
  apply main
  · decide
  · decide

/-- Witness for C1: a complete header that also has checksums and a script. -/
theorem C1_complete_header_ok_witness :
    metadata.headerFormat.CheckHeaderStructure
      [⟨".", true⟩, ⟨"checksums", true⟩, ⟨"checksums/image.sha", false⟩,
        ⟨"meta-data", false⟩, ⟨"scripts", true⟩, ⟨"scripts/pre", true⟩,
        ⟨"scripts/pre/00_stop", false⟩, ⟨"signatures", true⟩, ⟨"signatures/image.sig", false⟩,
        ⟨"type-info", false⟩] = none :=
  C1_complete_header_ok.1 _ (by decide) (by decide)

/-- C2 as stated fails: a header without `meta-data` that holds an unrecognized file
ends with `ErrUnsupportedElement`, not with `ErrMissingMetadataElem`. -/
theorem C2_counterexample :
    (∃ k ∈ metadata.mapKeys metadata.MetadataHeaderFormat,
      metadata.IsRequired metadata.MetadataHeaderFormat k ∧
      ∀ e ∈ ([⟨".", true⟩, ⟨"extra", false⟩, ⟨"signatures", true⟩, ⟨"signatures/sig1", false⟩,
          ⟨"type-info", false⟩] : List metadata.WalkEntry),
        ¬ metadata.Matches metadata.MetadataHeaderFormat e k) ∧
    metadata.headerFormat.CheckHeaderStructure
      [⟨".", true⟩, ⟨"extra", false⟩, ⟨"signatures", true⟩, ⟨"signatures/sig1", false⟩,
        ⟨"type-info", false⟩] = some metadata.Err.ErrUnsupportedElement ∧
    metadata.headerFormat.CheckHeaderStructure
      [⟨".", true⟩, ⟨"extra", false⟩, ⟨"signatures", true⟩, ⟨"signatures/sig1", false⟩,
        ⟨"type-info", false⟩] ≠ some metadata.Err.ErrMissingMetadataElem := by
  refine ⟨by decide, ?_, ?_⟩
  · simp only [metadata.MetadataArtifactHeader.CheckHeaderStructure,
      metadata.MetadataArtifactHeader.walk, metadata.processEntry_eq_twoLookups]
    decide
  · simp only [metadata.MetadataArtifactHeader.CheckHeaderStructure,
      metadata.MetadataArtifactHeader.walk, metadata.processEntry_eq_twoLookups]
    decide

/-- C2, amended: for every header all of whose observed entries match a schema pattern
with the same kind, and in which at least one required pattern is matched by no
entry, `CheckHeaderStructure` returns `ErrMissingMetadataElem`. -/
theorem C2_missing_required (es : List metadata.WalkEntry)
    (hes : ∀ e ∈ es, metadata.IsClean e.pth ∧
      ∃ k ∈ metadata.mapKeys metadata.MetadataHeaderFormat,
        metadata.Matches metadata.MetadataHeaderFormat e k)
    (hmiss : ∃ k ∈ metadata.mapKeys metadata.MetadataHeaderFormat,
      metadata.IsRequired metadata.MetadataHeaderFormat k ∧
      ∀ e ∈ es, ¬ metadata.Matches metadata.MetadataHeaderFormat e k) :
    metadata.headerFormat.CheckHeaderStructure es
      = some metadata.Err.ErrMissingMetadataElem := by
  obtain ⟨k, _, hkreq, hno⟩ := hmiss
  obtain ⟨r', hw, _, _, _, hc⟩ :=
    metadata.walk_all_match es (metadata.initRequired metadata.MetadataHeaderFormat []) hes
      (fun k hk => (metadata.required_in_tracker k hk).1)
  rw [metadata.checkHeaderStructure_of_walk_ok metadata.headerFormat es r' hw]
  have hget : metadata.mapGet r' k = some false := by
    rw [hc k hno]
    exact (metadata.required_in_tracker k hkreq).2
  have hmem := metadata.mem_of_mapGet r' k false hget
  rcases metadata.checkRequired_cases r' with h | h
  · have := (metadata.checkRequired_eq_none_iff r').mp h (k, false) hmem
    simp at this
  · exact h

/-- Witness for the amended C2: a header without `meta-data` and nothing unrecognized. -/
theorem C2_missing_required_witness :
    metadata.headerFormat.CheckHeaderStructure
      [⟨".", true⟩, ⟨"signatures", true⟩, ⟨"signatures/sig1", false⟩, ⟨"type-info", false⟩]
      = some metadata.Err.ErrMissingMetadataElem :=
  C2_missing_required _ (by decide) (by decide)

/-- C3 as stated fails: in a header that holds `signatures` as a file, an unrecognized
file visited before it ends the walk with `ErrUnsupportedElement`. -/
theorem C3_counterexample :
    metadata.PreOrder [] [⟨".", true⟩, ⟨"extra", false⟩, ⟨"meta-data", false⟩,
      ⟨"signatures", false⟩, ⟨"type-info", false⟩] ∧
    (∀ e ∈ ([⟨".", true⟩, ⟨"extra", false⟩, ⟨"meta-data", false⟩, ⟨"signatures", false⟩,
        ⟨"type-info", false⟩] : List metadata.WalkEntry), metadata.IsClean e.pth) ∧
    metadata.KindMismatch metadata.MetadataHeaderFormat ⟨"signatures", false⟩ "signatures" ∧
    metadata.headerFormat.CheckHeaderStructure
      [⟨".", true⟩, ⟨"extra", false⟩, ⟨"meta-data", false⟩, ⟨"signatures", false⟩,
        ⟨"type-info", false⟩] = some metadata.Err.ErrUnsupportedElement ∧
    metadata.headerFormat.CheckHeaderStructure
      [⟨".", true⟩, ⟨"extra", false⟩, ⟨"meta-data", false⟩, ⟨"signatures", false⟩,
        ⟨"type-info", false⟩] ≠ some metadata.Err.ErrInvalidMetadataElemType := by
  refine ⟨by decide, by decide, by decide, ?_, ?_⟩
  · simp only [metadata.MetadataArtifactHeader.CheckHeaderStructure,
      metadata.MetadataArtifactHeader.walk, metadata.processEntry_eq_twoLookups]
    decide
  · simp only [metadata.MetadataArtifactHeader.CheckHeaderStructure,
      metadata.MetadataArtifactHeader.walk, metadata.processEntry_eq_twoLookups]
    decide

/-- C3, amended: for every header that holds an entry whose path matches a schema
pattern, directly or through the parent's `*` pattern, with the opposite kind, and in
which no entry visited before that entry is unresolvable, `CheckHeaderStructure`
returns `ErrInvalidMetadataElemType`. -/
theorem C3_kind_mismatch (pre : List metadata.WalkEntry) (x : metadata.WalkEntry)
    (post : List metadata.WalkEntry)
    (hclean : ∀ e ∈ pre ++ x :: post, metadata.IsClean e.pth)
    (hx : ∃ k ∈ metadata.mapKeys metadata.MetadataHeaderFormat,
      metadata.KindMismatch metadata.MetadataHeaderFormat x k)
    (hpre : ∀ y ∈ pre, ¬ metadata.Unresolvable metadata.MetadataHeaderFormat y.pth) :
    metadata.headerFormat.CheckHeaderStructure (pre ++ x :: post)
      = some metadata.Err.ErrInvalidMetadataElemType := by
  apply metadata.checkHeaderStructure_of_walk_error
  apply metadata.walk_first_error
  · intro y hy r1
    have hcy : metadata.IsClean y.pth := hclean y (List.mem_append_left _ hy)
    rcases metadata.entry_trichotomy y with ⟨k, _, hm⟩ | ⟨k, _, hm⟩ | hu
    · left
      rw [metadata.processEntry_of_matches y k r1 hcy hm]
    · right
      rw [metadata.processEntry_of_kindMismatch y k r1 hcy hm]
    · exact absurd hu (hpre y hy)
  · intro r1
    obtain ⟨k, _, hm⟩ := hx
    have hcx : metadata.IsClean x.pth :=
      hclean x (List.mem_append_right _ (List.mem_cons_self _ _))
    rw [metadata.processEntry_of_kindMismatch x k r1 hcx hm]

/-- Witness for the amended C3: `signatures` observed as a file. -/
theorem C3_kind_mismatch_witness :
    metadata.headerFormat.CheckHeaderStructure
      ([⟨".", true⟩, ⟨"meta-data", false⟩] ++ ⟨"signatures", false⟩ :: [⟨"type-info", false⟩])
      = some metadata.Err.ErrInvalidMetadataElemType :=
  C3_kind_mismatch [⟨".", true⟩, ⟨"meta-data", false⟩] ⟨"signatures", false⟩
    [⟨"type-info", false⟩] (by decide) (by decide) (by decide)

/-- C4 as stated fails on its own example: in a pre-order walk of a header that holds
the file `scripts/pre/sub/x`, the directory `scripts/pre/sub` is visited first and
ends the walk with `ErrInvalidMetadataElemType`. -/
theorem C4_counterexample :
    metadata.PreOrder [] [⟨".", true⟩, ⟨"scripts", true⟩, ⟨"scripts/pre", true⟩,
      ⟨"scripts/pre/sub", true⟩, ⟨"scripts/pre/sub/x", false⟩] ∧
    (∀ e ∈ ([⟨".", true⟩, ⟨"scripts", true⟩, ⟨"scripts/pre", true⟩,
        ⟨"scripts/pre/sub", true⟩, ⟨"scripts/pre/sub/x", false⟩] : List metadata.WalkEntry),
      metadata.IsClean e.pth) ∧
    metadata.Unresolvable metadata.MetadataHeaderFormat "scripts/pre/sub/x" ∧
    metadata.headerFormat.CheckHeaderStructure
      [⟨".", true⟩, ⟨"scripts", true⟩, ⟨"scripts/pre", true⟩, ⟨"scripts/pre/sub", true⟩,
        ⟨"scripts/pre/sub/x", false⟩] = some metadata.Err.ErrInvalidMetadataElemType ∧
    metadata.headerFormat.CheckHeaderStructure
      [⟨".", true⟩, ⟨"scripts", true⟩, ⟨"scripts/pre", true⟩, ⟨"scripts/pre/sub", true⟩,
        ⟨"scripts/pre/sub/x", false⟩] ≠ some metadata.Err.ErrUnsupportedElement := by
  refine ⟨by decide, by decide, by decide, ?_, ?_⟩
  · simp only [metadata.MetadataArtifactHeader.CheckHeaderStructure,
      metadata.MetadataArtifactHeader.walk, metadata.processEntry_eq_twoLookups]
    decide
  · simp only [metadata.MetadataArtifactHeader.CheckHeaderStructure,
      metadata.MetadataArtifactHeader.walk, metadata.processEntry_eq_twoLookups]
    decide

/-- C4, amended: for every header that holds an unresolvable path (no schema match,
neither directly nor through the parent's `*` pattern), and in which no entry visited
before that path has a kind mismatch, `CheckHeaderStructure` returns
`ErrUnsupportedElement`. -/
theorem C4_unsupported (pre : List metadata.WalkEntry) (x : metadata.WalkEntry)
    (post : List metadata.WalkEntry)
    (hclean : ∀ e ∈ pre ++ x :: post, metadata.IsClean e.pth)
    (hx : metadata.Unresolvable metadata.MetadataHeaderFormat x.pth)
    (hpre : ∀ y ∈ pre, ¬ ∃ k ∈ metadata.mapKeys metadata.MetadataHeaderFormat,
      metadata.KindMismatch metadata.MetadataHeaderFormat y k) :
    metadata.headerFormat.CheckHeaderStructure (pre ++ x :: post)
      = some metadata.Err.ErrUnsupportedElement := by
  apply metadata.checkHeaderStructure_of_walk_error
  apply metadata.walk_first_error
  · intro y hy r1
    have hcy : metadata.IsClean y.pth := hclean y (List.mem_append_left _ hy)
    rcases metadata.entry_trichotomy y with ⟨k, _, hm⟩ | ⟨k, hk, hm⟩ | hu
    · left
      rw [metadata.processEntry_of_matches y k r1 hcy hm]
    · exact absurd ⟨k, hk, hm⟩ (hpre y hy)
    · right
      rw [metadata.processEntry_of_unresolvable y.pth y.isDir r1 hu]
  · intro r1
    rw [metadata.processEntry_of_unresolvable x.pth x.isDir r1 hx]

/-- Witness for the amended C4: an unknown file under `scripts`. -/
theorem C4_unsupported_witness :
    metadata.headerFormat.CheckHeaderStructure
      ([⟨".", true⟩, ⟨"meta-data", false⟩, ⟨"scripts", true⟩] ++
        ⟨"scripts/run", false⟩ :: [⟨"type-info", false⟩])
      = some metadata.Err.ErrUnsupportedElement :=
  C4_unsupported [⟨".", true⟩, ⟨"meta-data", false⟩, ⟨"scripts", true⟩] ⟨"scripts/run", false⟩
    [⟨"type-info", false⟩] (by decide) (by decide) (by decide)

/-- C5: wildcard fallback is exactly one level.  With `MetadataHeaderFormat`, for every
cleaned path and either kind, `processEntry` returns `ErrUnsupportedElement` if and
only if neither the path nor `dirname(path)/*` is a key of the table; the file
`checksums/sub/x` is rejected with `ErrUnsupportedElement`; and so is every name
without separator other than `.`, `files`, `meta-data`, `type-info`, `checksums`,
`signatures`, `scripts`. -/
theorem C5_one_level_wildcard :
    (∀ (p : String) (d : Bool) (r : metadata.GoMap Bool), metadata.IsClean p →
      ((metadata.headerFormat.processEntry p d r).1 = some metadata.Err.ErrUnsupportedElement ↔
        (metadata.mapGet metadata.MetadataHeaderFormat p = none ∧
          metadata.mapGet metadata.MetadataHeaderFormat (metadata.Dir p ++ "/*") = none))) ∧
    (∀ r : metadata.GoMap Bool,
      (metadata.headerFormat.processEntry "checksums/sub/x" false r).1
        = some metadata.Err.ErrUnsupportedElement) ∧
    (∀ (p : String) (d : Bool) (r : metadata.GoMap Bool), '/' ∉ p.data →
      p ∉ [".", "files", "meta-data", "type-info", "checksums", "signatures", "scripts"] →
      (metadata.headerFormat.processEntry p d r).1 = some metadata.Err.ErrUnsupportedElement) := by
  refine ⟨?_, ?_, ?_⟩
  · intro p d r hc
    constructor
    · intro h
      rcases metadata.entry_trichotomy ⟨p, d⟩ with ⟨k, _, hm⟩ | ⟨k, _, hm⟩ | hu
      · rw [metadata.processEntry_of_matches ⟨p, d⟩ k r hc hm] at h
        simp at h
      · rw [metadata.processEntry_of_kindMismatch ⟨p, d⟩ k r hc hm] at h
        simp at h
      · exact hu
    · intro hu
      rw [metadata.processEntry_of_unresolvable p d r hu]
  · intro r
    rw [metadata.processEntry_of_unresolvable "checksums/sub/x" false r (by decide)]
  · intro p d r hs hn
    have hdir := metadata.Dir_of_no_slash p hs
    have h1 : metadata.mapGet metadata.MetadataHeaderFormat p = none := by
      rw [metadata.mapGet_eq_none_iff]
      intro hmem
      have hall : ∀ k ∈ metadata.mapKeys metadata.MetadataHeaderFormat,
          k ∈ [".", "files", "meta-data", "type-info", "checksums", "signatures", "scripts"]
            ∨ '/' ∈ k.data := by
        decide
      rcases hall p hmem with h | h
      · exact hn h
      · exact hs h
    have h2 : metadata.mapGet metadata.MetadataHeaderFormat (metadata.Dir p ++ "/*") = none := by
      rw [hdir]
      decide
    rw [metadata.processEntry_of_unresolvable p d r ⟨h1, h2⟩]

/-- Witness for C5: the cleaned path `scripts/pre/sub/x` is rejected as unsupported. -/
theorem C5_one_level_wildcard_witness :
    (metadata.headerFormat.processEntry "scripts/pre/sub/x" false []).1
      = some metadata.Err.ErrUnsupportedElement :=
  (C5_one_level_wildcard.1 "scripts/pre/sub/x" false [] (by decide)).mpr (by decide)

/-- C6: `MetadataInfo.Validate` returns `ErrInvalidInfo` if and only if the format is
empty or the version is 0, and nil otherwise; it fails for `("", 1)` and
`("mender", 0)` and succeeds for `("mender", 1)` and for a negative version with a
non-empty format. -/
theorem C6_info_validate (m : metadata.MetadataInfo) :
    (m.Validate = some metadata.Err.ErrInvalidInfo ↔ (m.Format = "" ∨ m.Version = 0)) ∧
    (m.Validate = none ↔ ¬ (m.Format = "" ∨ m.Version = 0)) ∧
    metadata.MetadataInfo.Validate ⟨"", 1⟩ = some metadata.Err.ErrInvalidInfo ∧
    metadata.MetadataInfo.Validate ⟨"mender", 0⟩ = some metadata.Err.ErrInvalidInfo ∧
    metadata.MetadataInfo.Validate ⟨"mender", 1⟩ = none ∧
    metadata.MetadataInfo.Validate ⟨"mender", -3⟩ = none := by
  have key : ∀ x : metadata.MetadataInfo,
      (x.Validate = some metadata.Err.ErrInvalidInfo ↔ (x.Format = "" ∨ x.Version = 0)) ∧
      (x.Validate = none ↔ ¬ (x.Format = "" ∨ x.Version = 0)) := by
    intro x
    unfold metadata.MetadataInfo.Validate
    simp only [metadata.len_eq_zero_iff]
    by_cases h : x.Format = "" ∨ x.Version = 0
    · simp [h]
    · simp [h]
  refine ⟨(key m).1, (key m).2, ?_, ?_, ?_, ?_⟩
  · exact (key ⟨"", 1⟩).1.mpr (by decide)
  · exact (key ⟨"mender", 0⟩).1.mpr (by decide)
  · exact (key ⟨"mender", 1⟩).2.mpr (by decide)
  · exact (key ⟨"mender", -3⟩).2.mpr (by decide)

/-- C7: `Metadata.Validate` returns `ErrInvalidMetadata` whenever the backing map is
nil, or some value of the map is nil, or the key `DeviceType` is absent, or the key
`ImageID` is absent. -/
theorem C7_metadata_validate_fails (α : Type) (m : metadata.Metadata α)
    (h : m.data = none ∨ ∃ d, m.data = some d ∧
      ((∃ kv ∈ d, kv.2 = none) ∨ "DeviceType" ∉ metadata.mapKeys d ∨
        "ImageID" ∉ metadata.mapKeys d)) :
    m.Validate = some metadata.Err.ErrInvalidMetadata := by
  unfold metadata.Metadata.Validate
  rcases h with h | ⟨d, hd, h⟩
  · rw [h]
  · rw [hd]
    simp only []
    cases hl : metadata.Metadata.validateLoop d none none with
    | none => rfl
    | some r =>
      obtain ⟨dt, im⟩ := r
      have hnn : ¬ ∃ kv ∈ d, kv.2 = none := by
        rw [← metadata.metadata_loop_none_iff d none none, hl]
        simp
      obtain ⟨h1, h2⟩ := metadata.metadata_loop_some d none none dt im hl
      rcases h with h | h | h
      · exact absurd h hnn
      · have : dt.isNone = true := h1.mpr ⟨rfl, h⟩
        simp [this]
      · have : im.isNone = true := h2.mpr ⟨rfl, h⟩
        simp [this]

/-- Witness for C7: a map that holds `DeviceType` but not `ImageID`. -/
theorem C7_metadata_validate_fails_witness :
    metadata.Metadata.Validate (⟨some [("DeviceType", some 1)]⟩ : metadata.Metadata Nat)
      = some metadata.Err.ErrInvalidMetadata :=
  C7_metadata_validate_fails Nat ⟨some [("DeviceType", some 1)]⟩
    (Or.inr ⟨[("DeviceType", some 1)], rfl, Or.inr (Or.inr (by decide))⟩)

/-- C8 as stated fails: a map that holds `DeviceType` and `ImageID` with non-nil
values and one more key with a nil value is rejected. -/
theorem C8_counterexample :
    (∃ a, metadata.mapGet [("DeviceType", some 1), ("ImageID", some 2), ("Extra", (none : Option Nat))]
        "DeviceType" = some (some a)) ∧
    (∃ b, metadata.mapGet [("DeviceType", some 1), ("ImageID", some 2), ("Extra", (none : Option Nat))]
        "ImageID" = some (some b)) ∧
    metadata.Metadata.Validate
      (⟨some [("DeviceType", some 1), ("ImageID", some 2), ("Extra", none)]⟩ : metadata.Metadata Nat)
      = some metadata.Err.ErrInvalidMetadata :=
  ⟨⟨1, by decide⟩, ⟨2, by decide⟩, by decide⟩

/-- C8, amended: when the map holds `DeviceType` and `ImageID` with non-nil values and
no value of the map is nil, `Metadata.Validate` returns nil, whatever other keys
the map holds. -/
theorem C8_metadata_validate_ok (α : Type) (d : metadata.GoMap (Option α))
    (hdt : ∃ a, metadata.mapGet d "DeviceType" = some (some a))
    (him : ∃ b, metadata.mapGet d "ImageID" = some (some b))
    (hnn : ∀ kv ∈ d, kv.2 ≠ none) :
    metadata.Metadata.Validate ⟨some d⟩ = none := by
  obtain ⟨a, ha⟩ := hdt
  obtain ⟨b, hb⟩ := him
  have hk1 := metadata.mem_mapKeys_of_mapGet d _ _ ha
  have hk2 := metadata.mem_mapKeys_of_mapGet d _ _ hb
  unfold metadata.Metadata.Validate
  simp only []
  cases hl : metadata.Metadata.validateLoop d none none with
  | none =>
    obtain ⟨kv, hkv, hv⟩ := (metadata.metadata_loop_none_iff d none none).mp hl
    exact absurd hv (hnn kv hkv)
  | some r =>
    obtain ⟨dt, im⟩ := r
    obtain ⟨h1, h2⟩ := metadata.metadata_loop_some d none none dt im hl
    have e1 : dt.isNone = false := by
      cases hx : dt.isNone
      · rfl
      · exact absurd hk1 (h1.mp hx).2
    have e2 : im.isNone = false := by
      cases hx : im.isNone
      · rfl
      · exact absurd hk2 (h2.mp hx).2
    simp [e1, e2]

/-- Witness for the amended C8: the two mandatory keys and one more key, all non-nil. -/
theorem C8_metadata_validate_ok_witness :
    metadata.Metadata.Validate
      (⟨some [("DeviceType", some 1), ("Extra", some 7), ("ImageID", some 2)]⟩ :
        metadata.Metadata Nat) = none :=
  C8_metadata_validate_ok Nat [("DeviceType", some 1), ("Extra", some 7), ("ImageID", some 2)]
    ⟨1, by decide⟩ ⟨2, by decide⟩ (by decide)

/-- C9: `MetadataHeaderInfo.Validate` returns nil if and only if `Updates` is non-empty
and no element has an empty `Type`; otherwise it returns `ErrInvalidHeaderInfo`. -/
theorem C9_headerInfo_validate (m : metadata.MetadataHeaderInfo) :
    (m.Validate = none ↔ (m.Updates ≠ [] ∧ ∀ u ∈ m.Updates, u.Type_ ≠ "")) ∧
    (m.Validate = some metadata.Err.ErrInvalidHeaderInfo ↔
      ¬ (m.Updates ≠ [] ∧ ∀ u ∈ m.Updates, u.Type_ ≠ "")) := by
  have h1 : m.Validate = none ↔ (m.Updates ≠ [] ∧ ∀ u ∈ m.Updates, u.Type_ ≠ "") := by
    unfold metadata.MetadataHeaderInfo.Validate
    by_cases h : m.Updates = []
    · simp [h]
    · have hl : ¬ m.Updates.length = 0 := by simpa using h
      rw [if_neg hl, metadata.headerInfo_loop_none_iff]
      simp [h]
  have h2 : m.Validate = none ∨ m.Validate = some metadata.Err.ErrInvalidHeaderInfo := by
    unfold metadata.MetadataHeaderInfo.Validate
    split
    · exact Or.inr rfl
    · exact metadata.headerInfo_loop_cases _
  refine ⟨h1, ?_⟩
  rw [← h1]
  rcases h2 with h | h <;> simp [h]

/-- C10: `MetadataFiles.Validate` returns nil if and only if `Files` is non-empty and no
element has an empty `File` name; otherwise it returns `ErrInvalidFilesInfo`. -/
theorem C10_files_validate (m : metadata.MetadataFiles) :
    (m.Validate = none ↔ (m.Files ≠ [] ∧ ∀ f ∈ m.Files, f.File ≠ "")) ∧
    (m.Validate = some metadata.Err.ErrInvalidFilesInfo ↔
      ¬ (m.Files ≠ [] ∧ ∀ f ∈ m.Files, f.File ≠ "")) := by
  have h1 : m.Validate = none ↔ (m.Files ≠ [] ∧ ∀ f ∈ m.Files, f.File ≠ "") := by
    unfold metadata.MetadataFiles.Validate
    by_cases h : m.Files = []
    · simp [h]
    · have hl : ¬ m.Files.length = 0 := by simpa using h
      rw [if_neg hl, metadata.files_loop_none_iff]
      simp [h]
  have h2 : m.Validate = none ∨ m.Validate = some metadata.Err.ErrInvalidFilesInfo := by
    unfold metadata.MetadataFiles.Validate
    split
    · exact Or.inr rfl
    · exact metadata.files_loop_cases _
  refine ⟨h1, ?_⟩
  rw [← h1]
  rcases h2 with h | h <;> simp [h]

/-- C11: `MetadataHeaderFormat` has exactly the 15 patterns of the schema table, each
once, with the kind and the required flag of that table; the required patterns are
exactly `meta-data`, `type-info`, `signatures` and `signatures/*`. -/
theorem C11_schema_table :
    metadata.MetadataHeaderFormat.map (fun kv => (kv.1, kv.2.isDir, kv.2.required)) =
      [(".", true, false), ("files", false, false), ("meta-data", false, true),
        ("type-info", false, true), ("checksums", true, false),
        ("checksums/*", false, false), ("signatures", true, true),
        ("signatures/*", false, true), ("scripts", true, false),
        ("scripts/pre", true, false), ("scripts/pre/*", false, false),
        ("scripts/post", true, false), ("scripts/post/*", false, false),
        ("scripts/check", true, false), ("scripts/check/*", false, false)] ∧
    metadata.MetadataHeaderFormat.length = 15 ∧
    (metadata.mapKeys metadata.MetadataHeaderFormat).Nodup ∧
    (∀ k : String, metadata.IsRequired metadata.MetadataHeaderFormat k ↔
      k ∈ ["meta-data", "type-info", "signatures", "signatures/*"]) := by
  refine ⟨by decide, by decide, by decide, ?_⟩
  intro k
  constructor
  · intro hk
    have hmem : k ∈ metadata.mapKeys metadata.MetadataHeaderFormat := by
      unfold metadata.IsRequired at hk
      cases hg : metadata.mapGet metadata.MetadataHeaderFormat k with
      | none => rw [hg] at hk; simp at hk
      | some elem => exact metadata.mem_mapKeys_of_mapGet _ _ _ hg
    have hall : ∀ k ∈ metadata.mapKeys metadata.MetadataHeaderFormat,
        metadata.IsRequired metadata.MetadataHeaderFormat k →
          k ∈ ["meta-data", "type-info", "signatures", "signatures/*"] := by
      decide
    exact hall k hmem hk
  · intro hk
    have hall : ∀ k ∈ ["meta-data", "type-info", "signatures", "signatures/*"],
        metadata.IsRequired metadata.MetadataHeaderFormat k := by
      decide
    exact hall k hk

/-- C12, on the code: the callback never reads the traversal error it is given.  A
walk that reports a read error for the directory `checksums` of an otherwise
complete header makes `CheckHeaderStructure` return nil; a walk whose root cannot
be examined (nil `os.FileInfo`) makes it panic; and in general the callback does
the same with and without the traversal error. -/
theorem C12_traversal_error_dropped :
    metadata.CheckHeaderStructureCalls metadata.headerFormat
      [⟨metadata.RelResult.ok ".", some true, none⟩,
        ⟨metadata.RelResult.ok "checksums", some true, none⟩,
        ⟨metadata.RelResult.ok "checksums", some true, some "open checksums: permission denied"⟩,
        ⟨metadata.RelResult.ok "meta-data", some false, none⟩,
        ⟨metadata.RelResult.ok "signatures", some true, none⟩,
        ⟨metadata.RelResult.ok "signatures/sig1", some false, none⟩,
        ⟨metadata.RelResult.ok "type-info", some false, none⟩] = metadata.Outcome.returns none ∧
    metadata.CheckHeaderStructureCalls metadata.headerFormat
      [⟨metadata.RelResult.ok ".", none, some "lstat header: no such file or directory"⟩]
      = metadata.Outcome.panics ∧
    (∀ (mh : metadata.MetadataArtifactHeader) (call : metadata.WalkCall)
      (required : metadata.GoMap Bool),
      metadata.walkFn mh call required = metadata.walkFn mh ⟨call.rel, call.f, none⟩ required) := by
  refine ⟨?_, ?_, ?_⟩
  · simp only [metadata.CheckHeaderStructureCalls, metadata.walkCalls, metadata.walkFn,
      metadata.processEntry_eq_twoLookups]
    decide
  · simp only [metadata.CheckHeaderStructureCalls, metadata.walkCalls, metadata.walkFn]
  · intro mh call required
    rfl

/-- C15: any matcher error aborts the walk.  When the entries before `x` resolve and
`x` fails to resolve, `CheckHeaderStructure` returns exactly the error that
`processEntry` gives for `x`; the entries after `x` are not processed (the walk ends
the same whatever follows `x`); and the result does not depend on the state of the
required tracker. -/
theorem C15_fail_fast (mh : metadata.MetadataArtifactHeader) (pre : List metadata.WalkEntry)
    (x : metadata.WalkEntry) (post : List metadata.WalkEntry)
    (hpre : ∀ y ∈ pre, ∀ r, (mh.processEntry y.pth y.isDir r).1 = none)
    (hx : ∀ r, (mh.processEntry x.pth x.isDir r).1 ≠ none) :
    (∀ r, mh.CheckHeaderStructure (pre ++ x :: post) = (mh.processEntry x.pth x.isDir r).1) ∧
    (∀ r post', mh.walk (pre ++ x :: post) r = mh.walk (pre ++ x :: post') r) ∧
    (∀ r r', (mh.walk (pre ++ x :: post) r).1 = (mh.processEntry x.pth x.isDir r').1) := by
  have hpre0 : ∀ y ∈ pre, (mh.processEntry y.pth y.isDir []).1 = none :=
    fun y hy => hpre y hy []
  have hx0 : (mh.processEntry x.pth x.isDir []).1 ≠ none := hx []
  have hwalk : ∀ r post', mh.walk (pre ++ x :: post') r =
      mh.processEntry x.pth x.isDir (mh.walk pre r).2 := by
    intro r post'
    rw [metadata.walk_append_resolved mh pre _ hpre0 r, metadata.walk_cons_fails mh x post' hx0]
  have hfst : ∀ r r', (mh.walk (pre ++ x :: post) r).1 = (mh.processEntry x.pth x.isDir r').1 := by
    intro r r'
    rw [hwalk r post, metadata.processEntry_fst, ← metadata.processEntry_fst mh x.pth x.isDir r']
  refine ⟨?_, ?_, hfst⟩
  · intro r
    have h1 := hfst (metadata.initRequired mh.Artifacts []) r
    cases he : (mh.processEntry x.pth x.isDir r).1 with
    | none => exact absurd he (hx r)
    | some err =>
      rw [he] at h1
      exact metadata.checkHeaderStructure_of_walk_error mh _ err h1
  · intro r post'
    rw [hwalk r post, hwalk r post']

/-- Witness for C15: after `.` and `meta-data`, the file `signatures` fails. -/
theorem C15_fail_fast_witness :
    metadata.headerFormat.CheckHeaderStructure
      ([⟨".", true⟩, ⟨"meta-data", false⟩] ++ ⟨"signatures", false⟩ :: [⟨"zzz", false⟩]) =
      (metadata.headerFormat.processEntry "signatures" false []).1 :=
  (C15_fail_fast metadata.headerFormat [⟨".", true⟩, ⟨"meta-data", false⟩] ⟨"signatures", false⟩
    [⟨"zzz", false⟩]
    (by
      intro y hy r
      rw [metadata.processEntry_fst, metadata.processEntry_eq_twoLookups]
      revert y
      decide)
    (by
      intro r
      rw [metadata.processEntry_fst, metadata.processEntry_eq_twoLookups]
      decide)).1 []

/-- C17: `processEntry` changes the required tracker only by assigning true to the key
under which it found the entry (the pattern, not the observed path), and only when
it returns nil and the table entry found is required; when it returns an error or
the entry found is optional, the tracker is unchanged; and a second call with the
same arguments changes nothing more. -/
theorem C17_tracker_effect (mh : metadata.MetadataArtifactHeader) (p : String) (d : Bool)
    (r : metadata.GoMap Bool) :
    ((mh.processEntry p d r).2 = r ∨
      ∃ k elem, metadata.resolveKey mh p = some k ∧
        metadata.mapGet mh.Artifacts k = some elem ∧ elem.required = true ∧
        (mh.processEntry p d r).1 = none ∧
        (mh.processEntry p d r).2 = metadata.mapSet r k true) ∧
    ((mh.processEntry p d r).1 ≠ none → (mh.processEntry p d r).2 = r) ∧
    (∀ k elem, metadata.resolveKey mh p = some k →
      metadata.mapGet mh.Artifacts k = some elem → elem.required = false →
      (mh.processEntry p d r).2 = r) ∧
    mh.processEntry p d (mh.processEntry p d r).2 = mh.processEntry p d r ∧
    (metadata.headerFormat.processEntry "signatures/sig1" false r).2
      = metadata.mapSet r "signatures/*" true := by
  have hres := metadata.processEntry_resolveKey mh p d r
  refine ⟨?_, ?_, ?_, ?_, ?_⟩
  · cases h1 : metadata.resolveKey mh p with
    | none =>
      rw [h1] at hres
      left
      rw [hres]
    | some k =>
      rw [h1] at hres
      dsimp only at hres
      cases h2 : metadata.mapGet mh.Artifacts k with
      | none =>
        rw [h2] at hres
        left
        rw [hres]
      | some elem =>
        rw [h2] at hres
        dsimp only at hres
        by_cases hd : d = elem.isDir
        · by_cases hr : elem.required = true
          · right
            refine ⟨k, elem, rfl, h2, hr, ?_, ?_⟩
            · rw [hres]; simp [metadata.checkElem, hd, hr]
            · rw [hres]; simp [metadata.checkElem, hd, hr]
          · left
            rw [hres]; simp [metadata.checkElem, hd, hr]
        · left
          rw [hres]; simp [metadata.checkElem, hd]
  · intro herr
    rw [metadata.processEntry_snd]
    have : metadata.trackedKey mh p d = none := by
      apply metadata.trackedKey_of_error
      rw [← metadata.processEntry_fst mh p d r]
      exact herr
    rw [this]
    rfl
  · intro k elem h1 h2 hr
    rw [hres, h1]
    dsimp only
    rw [h2]
    dsimp only
    by_cases hd : d = elem.isDir <;> simp [metadata.checkElem, hd, hr]
  · rw [metadata.processEntry_uniform mh p d (mh.processEntry p d r).2,
      metadata.processEntry_uniform mh p d r]
    cases ht : metadata.trackedKey mh p d with
    | none => rfl
    | some k => simp [metadata.applyTracked, metadata.mapSet_mapSet_same]
  · rw [metadata.processEntry_eq_twoLookups]
    have h1 : metadata.mapGet metadata.headerFormat.Artifacts "signatures/sig1" = none := by
      decide
    have h2 : metadata.Base "signatures/sig1" ≠ "*" := by decide
    have h3 : metadata.mapGet metadata.headerFormat.Artifacts "signatures/*" =
          some ⟨"signatures", false, true⟩ := by decide
    have h4 : metadata.Dir "signatures/sig1" ++ "/*" = "signatures/*" := by decide
    simp [metadata.processEntryTwoLookups, h1, h2, h3, h4, metadata.checkElem]

/-- C18: `processEntry` returns after at most two table lookups: a bound of two
nested calls always suffices, because the retried path `dirname(entry)/*` has base
name `*`; and `processEntry` equals the function without recursion that looks up
`entry` and then, if it is absent and its base name is not `*`, looks up
`dirname(entry)/*` once. -/
theorem C18_two_lookups (mh : metadata.MetadataArtifactHeader) (entry : String) (isDir : Bool)
    (required : metadata.GoMap Bool) :
    metadata.processEntryFuel mh 2 entry isDir required
      = some (mh.processEntry entry isDir required) ∧
    metadata.Base (metadata.Dir entry ++ "/*") = "*" ∧
    mh.processEntry entry isDir required
      = metadata.processEntryTwoLookups mh entry isDir required := by
  refine ⟨?_, metadata.Base_dir_star entry, metadata.processEntry_eq_twoLookups mh entry isDir required⟩
  rw [metadata.processEntryFuel_two, metadata.processEntry_eq_twoLookups]

/-- C13: with `MetadataHeaderFormat`, for every header all of whose observed entries
resolve without matcher error, `CheckHeaderStructure` returns
`ErrMissingMetadataElem` if and only if some required pattern is matched by no
entry, and nil otherwise; the header `.`, `meta-data`, `type-info` with an empty
directory `signatures` returns `ErrMissingMetadataElem`; and
`ErrMissingMetadataElem` is never returned for a header in which some entry fails
to resolve. -/
theorem C13_missing_iff :
    (∀ es : List metadata.WalkEntry,
      (∀ e ∈ es, ∀ r, (metadata.headerFormat.processEntry e.pth e.isDir r).1 = none) →
      ((metadata.headerFormat.CheckHeaderStructure es = some metadata.Err.ErrMissingMetadataElem ↔
          ∃ k ∈ metadata.mapKeys metadata.MetadataHeaderFormat,
            metadata.IsRequired metadata.MetadataHeaderFormat k ∧
            ∀ e ∈ es, ¬ metadata.Matches metadata.MetadataHeaderFormat e k) ∧
        (metadata.headerFormat.CheckHeaderStructure es = none ↔
          ¬ ∃ k ∈ metadata.mapKeys metadata.MetadataHeaderFormat,
            metadata.IsRequired metadata.MetadataHeaderFormat k ∧
            ∀ e ∈ es, ¬ metadata.Matches metadata.MetadataHeaderFormat e k))) ∧
    metadata.headerFormat.CheckHeaderStructure
      [⟨".", true⟩, ⟨"meta-data", false⟩, ⟨"signatures", true⟩, ⟨"type-info", false⟩]
      = some metadata.Err.ErrMissingMetadataElem ∧
    (∀ es : List metadata.WalkEntry,
      (∃ e ∈ es, ∀ r, (metadata.headerFormat.processEntry e.pth e.isDir r).1 ≠ none) →
      metadata.headerFormat.CheckHeaderStructure es ≠ some metadata.Err.ErrMissingMetadataElem) := by
  refine ⟨?_, ?_, ?_⟩
  · intro es hres
    have hres0 : ∀ e ∈ es, (metadata.headerFormat.processEntry e.pth e.isDir []).1 = none :=
      fun e he => hres e he []
    have hiff := metadata.checkHeaderStructure_resolved es hres0
    have hnone : metadata.headerFormat.CheckHeaderStructure es = none ↔
        ¬ ∃ k ∈ metadata.mapKeys metadata.MetadataHeaderFormat,
          metadata.IsRequired metadata.MetadataHeaderFormat k ∧
          ∀ e ∈ es, ¬ metadata.Matches metadata.MetadataHeaderFormat e k := by
      rw [hiff]
      constructor
      · rintro hall ⟨k, hk, hreq, hno⟩
        obtain ⟨e, he, hm⟩ := hall k hk hreq
        exact hno e he hm
      · intro hno k hk hreq
        by_contra hc
        apply hno
        refine ⟨k, hk, hreq, ?_⟩
        intro e he hm
        exact hc ⟨e, he, hm⟩
    refine ⟨?_, hnone⟩
    have hw := metadata.walk_all_resolve metadata.headerFormat es hres0
      (metadata.initRequired metadata.headerFormat.Artifacts [])
    have hcases := metadata.checkRequired_cases
      (List.foldl (fun acc key => metadata.mapSet acc key true)
        (metadata.initRequired metadata.headerFormat.Artifacts [])
        (es.filterMap (fun e => metadata.trackedKey metadata.headerFormat e.pth e.isDir)))
    rw [← metadata.checkHeaderStructure_of_walk_ok metadata.headerFormat es _ hw] at hcases
    rw [← not_iff_not, ← hnone]
    rcases hcases with h | h <;> simp [h]
  · simp only [metadata.MetadataArtifactHeader.CheckHeaderStructure,
      metadata.MetadataArtifactHeader.walk, metadata.processEntry_eq_twoLookups]
    decide
  · rintro es ⟨e, he, hne⟩ hmiss
    have hw := metadata.walk_some_fails metadata.headerFormat es ⟨e, he, hne []⟩
      (metadata.initRequired metadata.headerFormat.Artifacts [])
    rcases hw with h | h
    · rw [metadata.checkHeaderStructure_of_walk_error metadata.headerFormat es _ h] at hmiss
      cases hmiss
    · rw [metadata.checkHeaderStructure_of_walk_error metadata.headerFormat es _ h] at hmiss
      cases hmiss

/-- Witness for C13: a header whose entries all resolve and that lacks `type-info`. -/
theorem C13_missing_iff_witness :
    metadata.headerFormat.CheckHeaderStructure
      [⟨".", true⟩, ⟨"meta-data", false⟩, ⟨"signatures", true⟩, ⟨"signatures/sig1", false⟩]
      = some metadata.Err.ErrMissingMetadataElem :=
  ((C13_missing_iff.1
    [⟨".", true⟩, ⟨"meta-data", false⟩, ⟨"signatures", true⟩, ⟨"signatures/sig1", false⟩]
    (by
      intro e he r
      rw [metadata.processEntry_fst, metadata.processEntry_eq_twoLookups]
      revert e
      decide)).1).mpr (by decide)

/-- C14: for every table, path and kind, when the path is a key of the table, or is
not a key, has a base name other than `*` and the `*` pattern of its directory is a
key, `processEntry` returns `ErrInvalidMetadataElemType` exactly when the kind
differs from `isDir` of the entry found, and nil otherwise.  With
`MetadataHeaderFormat` the directory `checksums/sub` is rejected with
`ErrInvalidMetadataElemType`, and a file with any name directly under `checksums`,
`signatures`, `scripts/pre`, `scripts/post` or `scripts/check` is accepted. -/
theorem C14_kind_check :
    (∀ (mh : metadata.MetadataArtifactHeader) (p : String) (d : Bool)
      (r : metadata.GoMap Bool) (elem : metadata.MetadataDirEntry),
      (metadata.mapGet mh.Artifacts p = some elem ∨
        (metadata.mapGet mh.Artifacts p = none ∧ metadata.Base p ≠ "*" ∧
          metadata.mapGet mh.Artifacts (metadata.Dir p ++ "/*") = some elem)) →
      (((mh.processEntry p d r).1 = some metadata.Err.ErrInvalidMetadataElemType ↔
          d ≠ elem.isDir) ∧
        ((mh.processEntry p d r).1 = none ↔ d = elem.isDir))) ∧
    (∀ r : metadata.GoMap Bool,
      (metadata.headerFormat.processEntry "checksums/sub" true r).1
        = some metadata.Err.ErrInvalidMetadataElemType) ∧
    (∀ parent ∈ ["checksums", "signatures", "scripts/pre", "scripts/post", "scripts/check"],
      ∀ (n : String) (r : metadata.GoMap Bool), '/' ∉ n.data →
        (metadata.headerFormat.processEntry (parent ++ "/" ++ n) false r).1 = none) := by
  have general : ∀ (mh : metadata.MetadataArtifactHeader) (p : String) (d : Bool)
      (r : metadata.GoMap Bool) (elem : metadata.MetadataDirEntry),
      (metadata.mapGet mh.Artifacts p = some elem ∨
        (metadata.mapGet mh.Artifacts p = none ∧ metadata.Base p ≠ "*" ∧
          metadata.mapGet mh.Artifacts (metadata.Dir p ++ "/*") = some elem)) →
      (mh.processEntry p d r).1 =
        if d = elem.isDir then none else some metadata.Err.ErrInvalidMetadataElemType := by
    intro mh p d r elem h
    rw [metadata.processEntry_eq_twoLookups, metadata.processEntryTwoLookups]
    rcases h with h | ⟨h1, h2, h3⟩
    · rw [h]
      exact metadata.checkElem_fst _ _ _ _
    · rw [h1]
      dsimp only
      rw [if_neg h2, h3]
      exact metadata.checkElem_fst _ _ _ _
  refine ⟨?_, ?_, ?_⟩
  · intro mh p d r elem h
    rw [general mh p d r elem h]
    by_cases hd : d = elem.isDir <;> simp [hd]
  · intro r
    rw [general metadata.headerFormat "checksums/sub" true r ⟨"checksums", false, false⟩
      (Or.inr ⟨by decide, by decide, by decide⟩)]
    decide
  · intro parent hparent n r hn
    have hdir : metadata.Dir (parent ++ "/" ++ n) = parent := by
      rw [metadata.Dir_child parent n hn]
      have hall : ∀ q ∈ ["checksums", "signatures", "scripts/pre", "scripts/post",
          "scripts/check"], metadata.Clean (q ++ "/") = q := by
        decide
      exact hall parent hparent
    have hwild : ∀ parent ∈ ["checksums", "signatures", "scripts/pre", "scripts/post",
        "scripts/check"], ∃ elem, metadata.mapGet metadata.headerFormat.Artifacts
          (parent ++ "/*") = some elem ∧ elem.isDir = false := by
      intro q hq
      have : ∀ q ∈ ["checksums", "signatures", "scripts/pre", "scripts/post",
          "scripts/check"], (metadata.mapGet metadata.headerFormat.Artifacts
            (q ++ "/*")).map metadata.MetadataDirEntry.isDir = some false := by
        decide
      have h := this q hq
      cases hg : metadata.mapGet metadata.headerFormat.Artifacts (q ++ "/*") with
      | none => rw [hg] at h; simp at h
      | some elem =>
        rw [hg] at h
        exact ⟨elem, rfl, by simpa using h⟩
    obtain ⟨welem, hw1, hw2⟩ := hwild parent hparent
    cases h1 : metadata.mapGet metadata.headerFormat.Artifacts (parent ++ "/" ++ n) with
    | some elem =>
      rw [general metadata.headerFormat _ false r elem (Or.inl h1)]
      have hmem := metadata.mem_of_mapGet _ _ _ h1
      have hall : ∀ kv ∈ metadata.MetadataHeaderFormat,
          metadata.Dir kv.1 ∈ ["checksums", "signatures", "scripts/pre", "scripts/post",
            "scripts/check"] → kv.2.isDir = false := by
        decide
      have := hall _ hmem (by rw [hdir]; exact hparent)
      simp at this
      simp [this]
    | none =>
      have hbase : metadata.Base (parent ++ "/" ++ n) ≠ "*" := by
        by_cases hne : n = ""
        · subst hne
          have hall : ∀ q ∈ ["checksums", "signatures", "scripts/pre", "scripts/post",
              "scripts/check"], metadata.Base (q ++ "/" ++ "") ≠ "*" := by
            decide
          exact hall parent hparent
        · rw [metadata.Base_child parent n hn hne]
          intro hstar
          subst hstar
          have hstr : parent ++ "/" ++ "*" = parent ++ "/*" := by
            rw [String.append_assoc]
            rfl
          rw [hstr, hw1] at h1
          cases h1
      rw [general metadata.headerFormat _ false r welem
        (Or.inr ⟨h1, hbase, by rw [hdir]; exact hw1⟩)]
      simp [hw2]

/-- Witness for C14: the file `scripts/post/99_reboot` is accepted. -/
theorem C14_kind_check_witness :
    (metadata.headerFormat.processEntry ("scripts/post" ++ "/" ++ "99_reboot") false []).1
      = none :=
  C14_kind_check.2.2 "scripts/post" (by decide) "99_reboot" [] (by decide)

/-- C16 as stated fails: a lexical walk that visits the unrecognized file `extra`
before `signatures` (a file) ends with `ErrUnsupportedElement`, and the permutation
that visits `signatures` first ends with `ErrInvalidMetadataElemType`. -/
theorem C16_counterexample :
    List.Perm ([⟨".", true⟩, ⟨"extra", false⟩, ⟨"signatures", false⟩, ⟨"type-info", false⟩] :
        List metadata.WalkEntry)
      [⟨".", true⟩, ⟨"signatures", false⟩, ⟨"extra", false⟩, ⟨"type-info", false⟩] ∧
    metadata.PreOrder [] [⟨".", true⟩, ⟨"extra", false⟩, ⟨"signatures", false⟩,
      ⟨"type-info", false⟩] ∧
    metadata.PreOrder [] [⟨".", true⟩, ⟨"signatures", false⟩, ⟨"extra", false⟩,
      ⟨"type-info", false⟩] ∧
    metadata.headerFormat.CheckHeaderStructure
      [⟨".", true⟩, ⟨"extra", false⟩, ⟨"signatures", false⟩, ⟨"type-info", false⟩]
      = some metadata.Err.ErrUnsupportedElement ∧
    metadata.headerFormat.CheckHeaderStructure
      [⟨".", true⟩, ⟨"signatures", false⟩, ⟨"extra", false⟩, ⟨"type-info", false⟩]
      = some metadata.Err.ErrInvalidMetadataElemType := by
  refine ⟨List.Perm.cons _ (List.Perm.swap _ _ _), by decide, by decide, ?_, ?_⟩
  · simp only [metadata.MetadataArtifactHeader.CheckHeaderStructure,
      metadata.MetadataArtifactHeader.walk, metadata.processEntry_eq_twoLookups]
    decide
  · simp only [metadata.MetadataArtifactHeader.CheckHeaderStructure,
      metadata.MetadataArtifactHeader.walk, metadata.processEntry_eq_twoLookups]
    decide

/-- C16, amended: for every sequence of observed entries in which the entries that
fail to resolve all give the same error (in particular when no entry or a single
entry fails), and every permutation of it, `CheckHeaderStructure` returns the same
result on both.  The condition is needed: a sequence with two failing entries that
give different errors has a permutation with another result.  Whatever the errors,
the result is nil on both or on neither, `ErrMissingMetadataElem` on both or on
neither, and one of the two matcher errors on each when some entry fails. -/
theorem C16_order_independence (mh : metadata.MetadataArtifactHeader)
    (es es' : List metadata.WalkEntry) (hperm : es.Perm es') :
    ((∀ e ∈ es, ∀ e' ∈ es, ∀ r,
        (mh.processEntry e.pth e.isDir r).1 ≠ none →
        (mh.processEntry e'.pth e'.isDir r).1 ≠ none →
        (mh.processEntry e.pth e.isDir r).1 = (mh.processEntry e'.pth e'.isDir r).1) →
      mh.CheckHeaderStructure es = mh.CheckHeaderStructure es') ∧
    ((∃ e ∈ es, ∃ e' ∈ es, ∃ r,
        (mh.processEntry e.pth e.isDir r).1 ≠ none ∧
        (mh.processEntry e'.pth e'.isDir r).1 ≠ none ∧
        (mh.processEntry e.pth e.isDir r).1 ≠ (mh.processEntry e'.pth e'.isDir r).1) →
      ∃ es'', es.Perm es'' ∧ mh.CheckHeaderStructure es'' ≠ mh.CheckHeaderStructure es) ∧
    (mh.CheckHeaderStructure es = none ↔ mh.CheckHeaderStructure es' = none) ∧
    (mh.CheckHeaderStructure es = some metadata.Err.ErrMissingMetadataElem ↔
      mh.CheckHeaderStructure es' = some metadata.Err.ErrMissingMetadataElem) ∧
    ((∃ e ∈ es, ∀ r, (mh.processEntry e.pth e.isDir r).1 ≠ none) →
      (mh.CheckHeaderStructure es = some metadata.Err.ErrInvalidMetadataElemType ∨
        mh.CheckHeaderStructure es = some metadata.Err.ErrUnsupportedElement) ∧
      (mh.CheckHeaderStructure es' = some metadata.Err.ErrInvalidMetadataElemType ∨
        mh.CheckHeaderStructure es' = some metadata.Err.ErrUnsupportedElement)) := by
  have hmem : ∀ e, e ∈ es ↔ e ∈ es' := fun _ => hperm.mem_iff
  have hfail : (∃ e ∈ es, (mh.processEntry e.pth e.isDir []).1 ≠ none) →
      (mh.CheckHeaderStructure es = some metadata.Err.ErrInvalidMetadataElemType ∨
        mh.CheckHeaderStructure es = some metadata.Err.ErrUnsupportedElement) ∧
      (mh.CheckHeaderStructure es' = some metadata.Err.ErrInvalidMetadataElemType ∨
        mh.CheckHeaderStructure es' = some metadata.Err.ErrUnsupportedElement) := by
    rintro ⟨e, he, hne⟩
    exact ⟨metadata.checkHeaderStructure_some_fails mh es ⟨e, he, hne⟩,
      metadata.checkHeaderStructure_some_fails mh es' ⟨e, (hmem e).mp he, hne⟩⟩
  have htight : (∃ e ∈ es, ∃ e' ∈ es, ∃ r,
        (mh.processEntry e.pth e.isDir r).1 ≠ none ∧
        (mh.processEntry e'.pth e'.isDir r).1 ≠ none ∧
        (mh.processEntry e.pth e.isDir r).1 ≠ (mh.processEntry e'.pth e'.isDir r).1) →
      ∃ es'', es.Perm es'' ∧ mh.CheckHeaderStructure es'' ≠ mh.CheckHeaderStructure es := by
    rintro ⟨e1, he1, e2, he2, r, h1, h2, hne⟩
    rw [metadata.processEntry_fst] at h1 h2
    rw [metadata.processEntry_fst mh e1.pth e1.isDir r,
      metadata.processEntry_fst mh e2.pth e2.isDir r] at hne
    have hfront : ∀ x ∈ es, (mh.processEntry x.pth x.isDir []).1 ≠ none →
        (mh.processEntry x.pth x.isDir []).1 ≠ mh.CheckHeaderStructure es →
        ∃ es'', es.Perm es'' ∧ mh.CheckHeaderStructure es'' ≠ mh.CheckHeaderStructure es := by
      intro x hx hxne hdiff
      refine ⟨x :: es.erase x, List.perm_cons_erase hx, ?_⟩
      rw [metadata.checkHeaderStructure_cons_fails mh x _ hxne]
      exact hdiff
    by_cases hc : (mh.processEntry e1.pth e1.isDir []).1 = mh.CheckHeaderStructure es
    · apply hfront e2 he2 h2
      rw [← hc]
      exact fun h => hne h.symm
    · exact hfront e1 he1 h1 hc
  by_cases hall : ∀ e ∈ es, (mh.processEntry e.pth e.isDir []).1 = none
  · have heq := metadata.checkHeaderStructure_same_entries mh es es' hall hmem
    refine ⟨fun _ => heq, htight, by rw [heq], by rw [heq], ?_⟩
    rintro ⟨e, he, hne⟩
    exact absurd (hall e he) (hne [])
  · have hex : ∃ e ∈ es, (mh.processEntry e.pth e.isDir []).1 ≠ none := by
      by_contra hno
      apply hall
      intro e he
      by_contra hne
      exact hno ⟨e, he, hne⟩
    have hex' : ∃ e ∈ es', (mh.processEntry e.pth e.isDir []).1 ≠ none := by
      obtain ⟨e, he, hne⟩ := hex
      exact ⟨e, (hmem e).mp he, hne⟩
    obtain ⟨h1, h2⟩ := hfail hex
    refine ⟨?_, htight, ?_, ?_, fun _ => ⟨h1, h2⟩⟩
    · intro hsame
      obtain ⟨a, ha, hane, hra⟩ := metadata.checkHeaderStructure_error_of_member mh es hex
      obtain ⟨b, hb, hbne, hrb⟩ := metadata.checkHeaderStructure_error_of_member mh es' hex'
      rw [hra, hrb]
      exact hsame a ha b ((hmem b).mpr hb) [] hane hbne
    · rcases h1 with h1 | h1 <;> rcases h2 with h2 | h2 <;> simp [h1, h2]
    · rcases h1 with h1 | h1 <;> rcases h2 with h2 | h2 <;> simp [h1, h2]

/-- Witness for the amended C16: a header with one unrecognized file, visited in the
reverse order. -/
theorem C16_order_independence_witness :
    metadata.headerFormat.CheckHeaderStructure
        [⟨"meta-data", false⟩, ⟨"extra", false⟩, ⟨"type-info", false⟩]
      = metadata.headerFormat.CheckHeaderStructure
        [⟨"type-info", false⟩, ⟨"extra", false⟩, ⟨"meta-data", false⟩] :=
  (C16_order_independence metadata.headerFormat
    [⟨"meta-data", false⟩, ⟨"extra", false⟩, ⟨"type-info", false⟩]
    [⟨"type-info", false⟩, ⟨"extra", false⟩, ⟨"meta-data", false⟩]
    (List.reverse_perm
      ([⟨"type-info", false⟩, ⟨"extra", false⟩, ⟨"meta-data", false⟩] :
        List metadata.WalkEntry))).1
    (by
      have key : ∀ e ∈ ([⟨"meta-data", false⟩, ⟨"extra", false⟩, ⟨"type-info", false⟩] :
            List metadata.WalkEntry),
          ∀ e' ∈ ([⟨"meta-data", false⟩, ⟨"extra", false⟩, ⟨"type-info", false⟩] :
            List metadata.WalkEntry),
          (metadata.processEntryTwoLookups metadata.headerFormat e.pth e.isDir []).1 ≠ none →
          (metadata.processEntryTwoLookups metadata.headerFormat e'.pth e'.isDir []).1 ≠ none →
          (metadata.processEntryTwoLookups metadata.headerFormat e.pth e.isDir []).1 =
            (metadata.processEntryTwoLookups metadata.headerFormat e'.pth e'.isDir []).1 := by
        decide
      intro e he e' he' r h1 h2
      rw [metadata.processEntry_fst, metadata.processEntry_eq_twoLookups] at h1 h2
      rw [metadata.processEntry_fst metadata.headerFormat e.pth e.isDir r,
        metadata.processEntry_fst metadata.headerFormat e'.pth e'.isDir r,
        metadata.processEntry_eq_twoLookups, metadata.processEntry_eq_twoLookups]
      exact key e he e' he' h1 h2)

/-- C19: required-tracker invariant.  For a table without repeated keys, in every
state reached during a pass (after initialisation and after each call of
`processEntry`) the keys of the tracker are exactly the required patterns of the
table, each once; a call of `processEntry` adds and removes no key, and changes no
value from true to false. -/
theorem C19_tracker_invariant (mh : metadata.MetadataArtifactHeader)
    (hnd : (metadata.mapKeys mh.Artifacts).Nodup) :
    (∀ r, metadata.TrackerReachable mh r →
      (∀ k, k ∈ metadata.mapKeys r ↔ metadata.IsRequired mh.Artifacts k) ∧
      (metadata.mapKeys r).Nodup) ∧
    (∀ r entry isDir, metadata.TrackerReachable mh r →
      metadata.mapKeys (mh.processEntry entry isDir r).2 = metadata.mapKeys r ∧
      ∀ k, metadata.mapGet r k = some true →
        metadata.mapGet (mh.processEntry entry isDir r).2 k = some true) := by
  have hstep : ∀ r entry isDir, (∀ k, metadata.IsRequired mh.Artifacts k → k ∈ metadata.mapKeys r) →
      metadata.mapKeys (mh.processEntry entry isDir r).2 = metadata.mapKeys r ∧
      ∀ k, metadata.mapGet r k = some true →
        metadata.mapGet (mh.processEntry entry isDir r).2 k = some true := by
    intro r entry isDir hkeys
    rw [metadata.processEntry_snd]
    cases ht : metadata.trackedKey mh entry isDir with
    | none => exact ⟨rfl, fun _ h => h⟩
    | some key =>
      have hreq := (metadata.trackedKey_some mh entry isDir key ht).2.1
      refine ⟨metadata.mapKeys_mapSet_of_mem r key true (hkeys key hreq), ?_⟩
      intro k hk
      show metadata.mapGet (metadata.mapSet r key true) k = some true
      rw [metadata.mapGet_mapSet]
      by_cases h : key = k
      · rw [if_pos h]
      · rw [if_neg h]; exact hk
  have hinv : ∀ r, metadata.TrackerReachable mh r →
      (∀ k, k ∈ metadata.mapKeys r ↔ metadata.IsRequired mh.Artifacts k) ∧
      (metadata.mapKeys r).Nodup := by
    intro r hr
    induction hr with
    | init =>
      refine ⟨?_, metadata.initRequired_nil_nodup mh.Artifacts⟩
      intro k
      rw [metadata.mem_mapKeys_initRequired, metadata.isRequired_iff_mem mh.Artifacts hnd]
      simp [metadata.mapKeys]
    | step r0 entry isDir _ ih =>
      obtain ⟨hk, hn⟩ := ih
      have := (hstep r0 entry isDir (fun k hreq => (hk k).mpr hreq)).1
      rw [this]
      exact ⟨hk, hn⟩
  refine ⟨hinv, ?_⟩
  intro r entry isDir hr
  exact hstep r entry isDir (fun k hreq => ((hinv r hr).1 k).mpr hreq)

/-- Witness for C19: `MetadataHeaderFormat`, in the state after the file
`signatures/sig1` was processed. -/
theorem C19_tracker_invariant_witness :
    (∀ k, k ∈ metadata.mapKeys
        (metadata.headerFormat.processEntry "signatures/sig1" false
          (metadata.initRequired metadata.headerFormat.Artifacts [])).2 ↔
      metadata.IsRequired metadata.headerFormat.Artifacts k) ∧
    (metadata.mapKeys
        (metadata.headerFormat.processEntry "signatures/sig1" false
          (metadata.initRequired metadata.headerFormat.Artifacts [])).2).Nodup :=
  (C19_tracker_invariant metadata.headerFormat (by decide)).1 _
    (metadata.TrackerReachable.step _ "signatures/sig1" false metadata.TrackerReachable.init)

/-- C20: determinism under map iteration order.  `Metadata.Validate` returns the same
result whatever order the pairs of the map are enumerated in; `CheckHeaderStructure`
returns the same result whatever order the first loop enumerates the table in and
the last loop enumerates the required tracker in; and the result is the same for
two enumerations of a table without repeated keys. -/
theorem C20_iteration_order :
    (∀ (α : Type) (d d' : metadata.GoMap (Option α)), d.Perm d' →
      metadata.Metadata.Validate ⟨some d⟩ = metadata.Metadata.Validate ⟨some d'⟩) ∧
    (∀ (mh : metadata.MetadataArtifactHeader) (tblOrder : metadata.GoMap metadata.MetadataDirEntry)
      (scan : metadata.GoMap Bool → metadata.GoMap Bool) (es : List metadata.WalkEntry),
      tblOrder.Perm mh.Artifacts → (∀ r, (scan r).Perm r) →
      metadata.CheckHeaderStructureEnum mh tblOrder scan es = mh.CheckHeaderStructure es) ∧
    (∀ (tbl tbl' : metadata.GoMap metadata.MetadataDirEntry) (es : List metadata.WalkEntry),
      tbl.Perm tbl' → (metadata.mapKeys tbl).Nodup →
      metadata.MetadataArtifactHeader.CheckHeaderStructure ⟨tbl'⟩ es
        = metadata.MetadataArtifactHeader.CheckHeaderStructure ⟨tbl⟩ es) := by
  refine ⟨?_, ?_, ?_⟩
  · intro α d d' hperm
    have hiff : metadata.Metadata.Validate ⟨some d⟩ = none ↔
        metadata.Metadata.Validate ⟨some d'⟩ = none := by
      rw [metadata.metadata_validate_none_iff, metadata.metadata_validate_none_iff]
      have hkeys : ∀ k, k ∈ metadata.mapKeys d ↔ k ∈ metadata.mapKeys d' :=
        fun k => (hperm.map Prod.fst).mem_iff
      rw [hkeys, hkeys]
      constructor
      · rintro ⟨h1, h2, h3⟩
        exact ⟨fun kv hkv => h1 kv (hperm.mem_iff.mpr hkv), h2, h3⟩
      · rintro ⟨h1, h2, h3⟩
        exact ⟨fun kv hkv => h1 kv (hperm.mem_iff.mp hkv), h2, h3⟩
    rcases metadata.metadata_validate_cases (⟨some d⟩ : metadata.Metadata α) with h1 | h1 <;>
      rcases metadata.metadata_validate_cases (⟨some d'⟩ : metadata.Metadata α) with h2 | h2
    · rw [h1, h2]
    · rw [hiff.mp h1] at h2; cases h2
    · rw [hiff.mpr h2] at h1; cases h1
    · rw [h1, h2]
  · intro mh tblOrder scan es hperm hscan
    exact metadata.checkHeaderStructureEnum_eq mh tblOrder scan es hperm hscan
  · intro tbl tbl' es hperm hnd
    have hget : ∀ k, metadata.mapGet (⟨tbl'⟩ : metadata.MetadataArtifactHeader).Artifacts k
        = metadata.mapGet (⟨tbl⟩ : metadata.MetadataArtifactHeader).Artifacts k :=
      fun k => (metadata.mapGet_perm tbl tbl' hnd hperm k).symm
    have h1 := metadata.checkHeaderStructureEnum_eq ⟨tbl⟩ tbl' id es hperm.symm
      (fun _ => List.Perm.refl _)
    rw [← h1]
    simp only [metadata.MetadataArtifactHeader.CheckHeaderStructure,
      metadata.CheckHeaderStructureEnum, metadata.walk_congr ⟨tbl'⟩ ⟨tbl⟩ hget, id]

/-- Witness for C20: `MetadataHeaderFormat` enumerated backwards by the first loop,
and the tracker enumerated backwards by the last loop. -/
theorem C20_iteration_order_witness :
    metadata.CheckHeaderStructureEnum metadata.headerFormat
        metadata.MetadataHeaderFormat.reverse List.reverse
        [⟨".", true⟩, ⟨"meta-data", false⟩]
      = metadata.headerFormat.CheckHeaderStructure [⟨".", true⟩, ⟨"meta-data", false⟩] :=
  C20_iteration_order.2.1 metadata.headerFormat metadata.MetadataHeaderFormat.reverse
    List.reverse [⟨".", true⟩, ⟨"meta-data", false⟩]
    (List.reverse_perm _) (fun r => List.reverse_perm r)
